import Mathlib

/-!
# Webcrawler: URL resolution and the breadth-first crawl loop

A shallow embedding of `crawler/main.go` (functions `parseURL` and `Crawl`).

Conventions of the embedding.

* Go strings are byte strings. The only byte tests made by the embedded code compare a byte
  with the ASCII bytes `/` and `.`; they are modelled on the characters of a `String`.
* A Go run-time panic is an explicit `Fault` result.
* `net/url.Parse` is an external library function: it is the parameter `parse` of `parseURL`.
* `path.Join` and `path.Clean` of the Go standard library are embedded in full, because the
  resolver's result is what they compute.
* The packages `site`, `fetcher` and `ratelimiter` are collaborators of the crawl loop: their
  operations are the fields of `Env`, threaded through an arbitrary world state.
* `int` counters (`counter`, node depth) are natural numbers: a wrap-around needs 2^63 fetches.
-/

namespace Crawler

/-! ## Data model -/

/-- User name and password part of a URL (`url.Userinfo`). -/
structure Userinfo where
  username : String
  password : String
  passwordSet : Bool
deriving DecidableEq, Repr

/-- The fields of Go's `url.URL`. `parseURL` reads and writes `Scheme`, `Host` and `Path` only;
the field `Opaque` of the library is called `OpaqueData` here. -/
structure URL where
  Scheme : String := ""
  OpaqueData : String := ""
  User : Option Userinfo := none
  Host : String := ""
  Path : String := ""
  RawPath : String := ""
  OmitHost : Bool := false
  ForceQuery : Bool := false
  RawQuery : String := ""
  Fragment : String := ""
  RawFragment : String := ""
deriving DecidableEq, Repr

/-- The run-time panics the embedded code can raise. -/
inductive Fault where
  | nilDereference
  | indexOutOfRange
deriving DecidableEq, Repr

/-- Result of a Go function returning `(value, error)` that may also panic. -/
inductive Res (α : Type) where
  | ok (val : α)
  | error (err : String)
  | fault (f : Fault)
deriving DecidableEq, Repr

/-! ## `path.Clean` and `path.Join` -/

/-- The backtracking loop of `path.Clean` for a `..` element,
`out.w--; for out.w > dotdot && out.index(out.w) != '/' { out.w-- }`.
The buffer `out[0:w]` is held last byte first; `c` is the byte `out.index(out.w)` that the
previous decrement dropped. -/
def backtrackFrom (dotdot : Nat) : Char → List Char → List Char
  | _, [] => []
  | c, d :: out =>
    if (d :: out).length > dotdot ∧ c ≠ '/' then backtrackFrom dotdot d out else d :: out

/-- The decrement `out.w--` followed by the backtracking loop. -/
def backtrack (dotdot : Nat) : List Char → List Char
  | [] => []
  | c :: out => backtrackFrom dotdot c out

/-- The main loop `for r < n` of `path.Clean`. `rest` is `path[r:]`, `out` is the buffer
`out[0:w]` held last byte first, and the first argument bounds the number of iterations. -/
def cleanLoop (rooted : Bool) : Nat → List Char → List Char → Nat → List Char
  | 0, _, out, _ => out
  | _ + 1, [], out, _ => out
  | fuel + 1, c :: t, out, dotdot =>
    if c = '/' then
      -- empty path element
      cleanLoop rooted fuel t out dotdot
    else if c = '.' ∧ (t = [] ∨ t.head? = some '/') then
      -- . element
      cleanLoop rooted fuel t out dotdot
    else if c = '.' ∧ t.head? = some '.' ∧ (t.tail = [] ∨ t.tail.head? = some '/') then
      -- .. element: remove to last /
      if out.length > dotdot then
        cleanLoop rooted fuel t.tail (backtrack dotdot out) dotdot
      else if rooted = false then
        let out1 := if out.length > 0 then '/' :: out else out
        let out2 := '.' :: '.' :: out1
        cleanLoop rooted fuel t.tail out2 out2.length
      else
        cleanLoop rooted fuel t.tail out dotdot
    else
      -- real path element: add slash if needed, copy element
      let out1 :=
        if (rooted = true ∧ out.length ≠ 1) ∨ (rooted = false ∧ out.length ≠ 0)
        then '/' :: out else out
      cleanLoop rooted fuel ((c :: t).dropWhile (· ≠ '/'))
        (((c :: t).takeWhile (· ≠ '/')).reverse ++ out1) dotdot

/-- Go's `path.Clean`. Every iteration of the loop consumes at least one byte of the path, so
`path.length` iterations are enough. -/
def Clean (path : List Char) : List Char :=
  if path = [] then ['.']
  else
    let rooted : Bool := path.head? = some '/'
    let out :=
      if rooted then cleanLoop rooted path.length path.tail ['/'] 1
      else cleanLoop rooted path.length path [] 0
    if out.length = 0 then ['.'] else out.reverse

/-- The loop of `path.Join` that concatenates the non-empty elements with a `/` in between. -/
def joinBuf : List (List Char) → List Char → List Char
  | [], buf => buf
  | e :: elem, buf =>
    if buf.length > 0 ∨ e ≠ [] then
      joinBuf elem ((if buf.length > 0 then buf ++ ['/'] else buf) ++ e)
    else joinBuf elem buf

/-- Go's `path.Join`. -/
def Join (elem : List (List Char)) : List Char :=
  if (elem.map List.length).sum = 0 then []
  else Clean (joinBuf elem [])

/-! ## `parseURL` -/

/-- The function `parseURL` of `crawler/main.go`. `parse` is `url.Parse`; `p = none` is the nil
parent. -/
def parseURL (parse : String → Except String URL) (p : Option URL) (urlString : String) :
    Res URL :=
  match parse urlString with
  | .error err => .error err
  | .ok u =>
    let u := if u.Path = "" then { u with Path := "/" } else u
    -- handle relative url
    let u := match p with
      | some q => if u.Host = "" then { u with Host := q.Host } else u
      | none => u
    let u := match p with
      | some q => if u.Scheme = "" then { u with Scheme := q.Scheme } else u
      | none => u
    match u.Path.data with
    | [] => .fault .indexOutOfRange
    | c :: _ =>
      if c = '.' then
        match p with
        | none => .fault .nilDereference
        | some q => .ok { u with Path := String.mk (Join [q.Path.data, u.Path.data]) }
      else .ok u

/-! ## Collaborators of the crawl loop -/

/-- Modelled from the spec: the type `site.URLNode` of the package `site`, which is not part of
the embedded file. A node carries its URL and its depth; `NewURLNode` builds it and `GetURL`,
`GetDepth` read the two attributes back. -/
structure URLNode where
  url : URL
  depth : Nat
deriving DecidableEq, Repr

/-- Modelled from the spec: `site.NewURLNode(u, depth)`, missing from the embedded file. -/
def NewURLNode (u : URL) (depth : Nat) : URLNode := { url := u, depth := depth }

/-- Modelled from the spec: the accessor `GetURL` of `site.URLNode`. -/
def URLNode.GetURL (n : URLNode) : URL := n.url

/-- Modelled from the spec: the accessor `GetDepth` of `site.URLNode`. -/
def URLNode.GetDepth (n : URLNode) : Nat := n.depth

/-- The three classes of `sitemap.AddChild` results told apart by the type switch of `Crawl`:
`nil`, `site.ErrInvalidNode`, and any other error. -/
inductive AddChildErr where
  | nil
  | errInvalidNode
  | other
deriving DecidableEq, Repr

/-- The error values `Crawl` returns, with the arguments of the two `fmt.Errorf` calls. -/
inductive CrawlError where
  | parsing (rootURL : String) (cause : String)
  | aborted (counter : Nat) (cause : String)
deriving DecidableEq, Repr

/-- The text of a `CrawlError`, as formatted by `fmt.Errorf`. -/
def CrawlError.Error : CrawlError → String
  | .parsing rootURL cause => "parsing url '" ++ rootURL ++ "': " ++ cause
  | .aborted counter cause => "aborted after " ++ toString counter ++ " url fetchs, " ++ cause

/-- The external calls of a run, in call order. -/
inductive Event where
  | limiterGet (hostname : String)
  | limiterStop (hostname : String)
  | cancelled
  | fetch (node : URLNode) (result : List String) (err : Option String)
  | parseFailed (parent : URLNode) (urlString : String)
  | addChild (parent child : URLNode) (err : AddChildErr)
  | enqueue (child : URLNode)
deriving DecidableEq, Repr

/-- The collaborators of `Crawl`, as functions of an arbitrary world state `W` (the site map, the
network, the clock and the context all live in the world).

* `parse` is `url.Parse`;
* `getHostName` is `rootNode.GetHostName()`;
* `newSiteMap` is `site.NewSiteMap(rootNode, maxDepth)`;
* `ctxDone` tells whether `<-ctx.Done()` is ready, `ctxErr` is the text of `ctx.Err()`;
* `fetch` is `fetcher.Fetch` applied to the `String()` of the node's URL: it returns the link
  list and the error of the call, and the next world;
* `addChild` is `sitemap.AddChild(parent, child)`. -/
structure Env (W : Type) where
  parse : String → Except String URL
  getHostName : URLNode → String
  newSiteMap : W → URLNode → Int → W
  ctxDone : W → Bool
  ctxErr : W → String
  fetch : W → URL → (List String × Option String) × W
  addChild : W → URLNode → URLNode → AddChildErr × W

/-! ## `Crawl` -/

/-- The local variables of `Crawl` that the loop updates, the world, and the calls made so
far. -/
structure LoopState (W : Type) where
  world : W
  queue : List URLNode
  counter : Nat
  trace : List Event

/-- How a run ends: `Crawl` returns its pair `(site map, error)`, or it panics, or the loop is
still running when the iteration bound is reached. -/
inductive Outcome (W : Type) where
  | returned (sitemap : Option W) (err : Option CrawlError)
  | panicked (f : Fault)
  | running

/-- A run: its outcome and the last loop state (whose `trace` lists the calls made). -/
structure Run (W : Type) where
  outcome : Outcome W
  final : LoopState W

/-- The loop `for _, urlString := range result` over the links of the node `parent`. The second
component is the panic that interrupted the loop, if any. -/
def rangeResult {W : Type} (env : Env W) (parent : URLNode) :
    List String → LoopState W → LoopState W × Option Fault
  | [], st => (st, none)
  | urlString :: result, st =>
    match parseURL env.parse (some parent.GetURL) urlString with
    | .error _ =>
      rangeResult env parent result
        { st with trace := st.trace ++ [Event.parseFailed parent urlString] }
    | .fault f => (st, some f)
    | .ok u =>
      let child := NewURLNode u (parent.GetDepth + 1)
      let r := env.addChild st.world parent child
      match r.1 with
      | .nil =>
        rangeResult env parent result
          { st with
            world := r.2
            queue := st.queue ++ [child]
            trace := st.trace ++ [Event.addChild parent child .nil, Event.enqueue child] }
      | e =>
        rangeResult env parent result
          { st with
            world := r.2
            trace := st.trace ++ [Event.addChild parent child e] }

/-- The loop `for { select { ... } }` of `Crawl`, run for at most the given number of
iterations. -/
def crawlLoop {W : Type} (env : Env W) : Nat → LoopState W → Run W
  | 0, st => { outcome := .running, final := st }
  | fuel + 1, st =>
    if env.ctxDone st.world then
      { outcome := .returned none (some (.aborted st.counter (env.ctxErr st.world)))
        final := { st with trace := st.trace ++ [Event.cancelled] } }
    else
      match st.queue with
      | [] => { outcome := .returned (some st.world) none, final := st }
      | parent :: queue =>
        let r := env.fetch st.world parent.GetURL
        let st1 : LoopState W :=
          { world := r.2
            queue := queue
            counter := if r.1.2 = none then st.counter + 1 else st.counter
            trace := st.trace ++ [Event.fetch parent r.1.1 r.1.2] }
        match rangeResult env parent r.1.1 st1 with
        | (st2, some f) => { outcome := .panicked f, final := st2 }
        | (st2, none) => crawlLoop env fuel st2

/-- The deferred call `ratelimiter.Stop(hostname)`: it runs when `Crawl` returns or panics. -/
def deferStop {W : Type} (hostname : String) (r : Run W) : Run W :=
  match r.outcome with
  | .running => r
  | _ => { r with final := { r.final with trace := r.final.trace ++ [Event.limiterStop hostname] } }

/-- The function `Crawl` of `crawler/main.go`, started in world `w` and run for at most `fuel`
iterations of its loop. The arguments `timeout`, `ratelimit` and `log` only reach the
collaborators and are part of `env`. -/
def Crawl {W : Type} (env : Env W) (w : W) (rootURL : String) (maxDepth : Int) (fuel : Nat) :
    Run W :=
  let st0 : LoopState W := { world := w, queue := [], counter := 0, trace := [] }
  -- Create root URLNode
  match parseURL env.parse none rootURL with
  | .error err => { outcome := .returned none (some (.parsing rootURL err)), final := st0 }
  | .fault f => { outcome := .panicked f, final := st0 }
  | .ok u =>
    let rootNode := NewURLNode u 0
    let w1 := env.newSiteMap w rootNode maxDepth
    -- Get RateLimiter and create Fetcher
    let hostname := env.getHostName rootNode
    -- Crawl
    deferStop hostname
      (crawlLoop env fuel
        { world := w1, queue := [rootNode], counter := 0, trace := [Event.limiterGet hostname] })

/-! ## Concrete inputs -/

/-- A table of answers of `url.Parse`: each listed string is answered as the library answers
it (scheme, host and path split, nothing to unescape; `":"` has no scheme in front of its
colon). A string that is not listed is answered with an error; only the listed answers are
used. -/
def urlParseTable : String → Except String URL
  | "" => .ok {}
  | "." => .ok { Path := "." }
  | "z" => .ok { Path := "z" }
  | "/z" => .ok { Path := "/z" }
  | "./z" => .ok { Path := "./z" }
  | "../z" => .ok { Path := "../z" }
  | "/a" => .ok { Path := "/a" }
  | "/b" => .ok { Path := "/b" }
  | "http://a.com" => .ok { Scheme := "http", Host := "a.com" }
  | "http://a.com/x/y" => .ok { Scheme := "http", Host := "a.com", Path := "/x/y" }
  | "http://b.com/z" => .ok { Scheme := "http", Host := "b.com", Path := "/z" }
  | ":" => .error "parse \":\": missing protocol scheme"
  | _ => .error "not in the table"

/-- The parent URL `http://a.com/x/y` of the examples. -/
def parentXY : URL := { Scheme := "http", Host := "a.com", Path := "/x/y" }

/-! ## Vocabulary of the properties -/

/-- The segments of a path: the pieces between its `/` bytes. -/
def splitSlash : List Char → List (List Char)
  | [] => [[]]
  | c :: t =>
    if c = '/' then [] :: splitSlash t
    else
      match splitSlash t with
      | [] => [[c]]
      | s :: ss => (c :: s) :: ss

/-- A segment a cleaned path may hold: not empty, not `.`, not `..`. -/
def CleanSegment (s : List Char) : Prop := s ≠ [] ∧ s ≠ ['.'] ∧ s ≠ ['.', '.']

instance (s : List Char) : Decidable (CleanSegment s) := by
  unfold CleanSegment
  exact inferInstance

/-- A cleaned absolute path: it begins with `/`, and either it is `/` itself or the segments
after the leading `/` are all clean segments (so none is empty: no doubled and no trailing
slash) and its last byte is not `/`. -/
def CleanAbsPath (path : List Char) : Prop :=
  path.head? = some '/' ∧
  (path = ['/'] ∨ ((∀ s ∈ splitSlash path.tail, CleanSegment s) ∧ path.getLast? ≠ some '/'))

instance (path : List Char) : Decidable (CleanAbsPath path) := by
  unfold CleanAbsPath
  exact inferInstance

/-- The buffer of `path.Clean`, last byte first, that holds `/s1/s2/.../sn` for the stack of
segments `[sn, ..., s2, s1]`. -/
def flatSegs : List (List Char) → List Char
  | [] => []
  | s :: st => s.reverse ++ '/' :: flatSegs st

/-- The buffer of a rooted `path.Clean` for a stack of segments: `/` for the empty stack. -/
def rootedBuf (st : List (List Char)) : List Char :=
  if st = [] then ['/'] else flatSegs st

/-- A segment as the loop of `path.Clean` copies it: a clean segment without `/`. -/
def CopiedSegment (s : List Char) : Prop := CleanSegment s ∧ '/' ∉ s

/-- The depths of the nodes passed to `Fetch`, in call order. -/
def fetchDepths (trace : List Event) : List Nat :=
  trace.filterMap (fun e => match e with
    | .fetch node _ _ => some node.GetDepth
    | _ => none)

/-- The number of `Fetch` calls of a trace that returned without error. -/
def okFetches (trace : List Event) : Nat :=
  (trace.filter (fun e => match e with
    | .fetch _ _ none => true
    | _ => false)).length

/-- The events of the loop over the links of a fetched page. -/
def Event.isLinkEvent : Event → Bool
  | .parseFailed _ _ => true
  | .addChild _ _ _ => true
  | .enqueue _ => true
  | _ => false

/-- The queue is sorted by depth and holds at most two consecutive depth values. -/
def QueueOrdered (queue : List URLNode) : Prop :=
  (queue.map URLNode.GetDepth).Sorted (· ≤ ·) ∧
  ∀ x ∈ queue, ∀ y ∈ queue, y.GetDepth ≤ x.GetDepth + 1

/-- The state after the `Fetch` call of an iteration that dequeued `parent`, before the loop
over the returned links. -/
def afterFetch {W : Type} (env : Env W) (st : LoopState W) (parent : URLNode)
    (queue : List URLNode) : LoopState W :=
  { world := (env.fetch st.world parent.GetURL).2
    queue := queue
    counter := if (env.fetch st.world parent.GetURL).1.2 = none then st.counter + 1 else st.counter
    trace := st.trace ++ [Event.fetch parent (env.fetch st.world parent.GetURL).1.1
      (env.fetch st.world parent.GetURL).1.2] }

/-- The breadth-first invariant of the loop: the fetches made so far are in non-decreasing depth
order, the queue is ordered, and no queued node is shallower than a fetched one. -/
def FetchOrdered {W : Type} (st : LoopState W) : Prop :=
  (fetchDepths st.trace).Sorted (· ≤ ·) ∧ QueueOrdered st.queue ∧
  ∀ f ∈ fetchDepths st.trace, ∀ x ∈ st.queue, f ≤ x.GetDepth

/-- The nodes passed to `Fetch`, in call order. -/
def fetchedNodes (trace : List Event) : List URLNode :=
  trace.filterMap (fun e => match e with
    | .fetch node _ _ => some node
    | _ => none)

/-- The candidates for which `AddChild` returned no error, in call order. -/
def acceptedNodes (trace : List Event) : List URLNode :=
  trace.filterMap (fun e => match e with
    | .addChild _ child .nil => some child
    | _ => none)

/-- The nodes appended to the queue by the loop over the links, in order. -/
def enqueuedNodes (trace : List Event) : List URLNode :=
  trace.filterMap (fun e => match e with
    | .enqueue child => some child
    | _ => none)

/-- What happens to one returned link: it is skipped because it does not resolve, or `AddChild`
is attempted with the resolved candidate. -/
inductive LinkOutcome where
  | skipped (parent : URLNode) (urlString : String)
  | attempted (parent child : URLNode)
deriving DecidableEq, Repr

/-- The link outcomes recorded in a trace, in order: one for each failed resolution and one for
each `AddChild` call. -/
def linkOutcomes (trace : List Event) : List LinkOutcome :=
  trace.filterMap (fun e => match e with
    | .parseFailed parent urlString => some (.skipped parent urlString)
    | .addChild parent child _ => some (.attempted parent child)
    | _ => none)

/-- The outcome a returned link must have: an `AddChild` attempt with the candidate of depth
`parent depth + 1` when the link resolves against the parent's URL, a skip when it does not. -/
def resolveLink {W : Type} (env : Env W) (parent : URLNode) (urlString : String) : LinkOutcome :=
  match parseURL env.parse (some parent.GetURL) urlString with
  | .ok u => .attempted parent (NewURLNode u (parent.GetDepth + 1))
  | _ => .skipped parent urlString

/-- The outcomes the fetches of a trace call for: for each `Fetch` call, in call order, one
outcome for each link of the returned list, in the order of the list. -/
def expectedOutcomes {W : Type} (env : Env W) (trace : List Event) : List LinkOutcome :=
  trace.flatMap (fun e => match e with
    | .fetch node result _ => result.map (resolveLink env node)
    | _ => [])

/-- Reads a trace from its first call on and tells whether every accepted `AddChild` call is
followed at once by the enqueueing of its candidate, and every enqueueing comes right after
such a call. The first argument is the accepted candidate that still waits for its
enqueueing. -/
def pairedFrom : Option URLNode → List Event → Bool
  | none, [] => true
  | some _, [] => false
  | none, e :: rest =>
    match e with
    | .addChild _ child .nil => pairedFrom (some child) rest
    | .enqueue _ => false
    | _ => pairedFrom none rest
  | some child, e :: rest =>
    match e with
    | .enqueue c => decide (c = child) && pairedFrom none rest
    | _ => false

/-- The invariant of the loop on its trace, for the root node `root`: the fetched nodes followed
by the queued ones are the root followed by the accepted candidates; the enqueued nodes are the
accepted candidates; every link of every fetched page has its outcome; every candidate is one
level below the parent it is passed with; accepted calls and enqueueings go in pairs. -/
def TraceInv {W : Type} (env : Env W) (root : URLNode) (st : LoopState W) : Prop :=
  fetchedNodes st.trace ++ st.queue = root :: acceptedNodes st.trace ∧
  enqueuedNodes st.trace = acceptedNodes st.trace ∧
  linkOutcomes st.trace = expectedOutcomes env st.trace ∧
  (∀ p c r, Event.addChild p c r ∈ st.trace → c.GetDepth = p.GetDepth + 1) ∧
  (∀ s, pairedFrom none (st.trace ++ s) = pairedFrom none s)

/-- The level of a queued node in the termination argument, for the depth bound `bound`: a node
of level `j` is at most `j - 1` levels above the bound, and no node has level 0. -/
def levelOK (bound j : Nat) (x : URLNode) : Prop := 0 < j ∧ bound + 1 ≤ x.GetDepth + j

/-! ## A small world to run the model in -/

/-- The world of the sample runs: the nodes of the site map, its depth bound, and the number of
`Fetch` calls made so far. -/
structure SimWorld where
  nodes : List URLNode := []
  maxDepth : Int := 0
  fetches : Nat := 0
deriving DecidableEq, Repr

/-- Modelled from the spec: the operation `AddChild` of the site map, whose package `site` is
not part of the embedded file. A parent that is not in the tree is a structural error; a
candidate deeper than `maxDepth` or whose URL is already in the tree is an invalid node; any
other candidate becomes a node of the tree. -/
def simAddChild (w : SimWorld) (parent child : URLNode) : AddChildErr × SimWorld :=
  if parent ∉ w.nodes then (.other, w)
  else if w.maxDepth < (child.GetDepth : Int) ∨ child.GetURL ∈ w.nodes.map URLNode.GetURL then
    (.errInvalidNode, w)
  else (.nil, { w with nodes := w.nodes ++ [child] })

/-- Sample collaborators: `pages` is the answer of the fetcher for each URL, and the context is
cancelled once `cancelAfter` fetches have been made (never, for `none`). -/
def simEnv (pages : URL → List String × Option String) (cancelAfter : Option Nat) :
    Env SimWorld where
  parse := urlParseTable
  getHostName := fun n => n.GetURL.Host
  newSiteMap := fun w rootNode maxDepth => { w with nodes := [rootNode], maxDepth := maxDepth }
  ctxDone := fun w => match cancelAfter with
    | some k => decide (k ≤ w.fetches)
    | none => false
  ctxErr := fun _ => "context canceled"
  fetch := fun w u => (pages u, { w with fetches := w.fetches + 1 })
  addChild := simAddChild

/-- A site whose every fetch fails and still hands back the link `/a`. -/
def failingPages : URL → List String × Option String :=
  fun _ => (["/a"], some "timeout")

/-- A site of three pages: the root links to `/a`, `/b` and to an unparsable link, `/a` links to
`/b` and back to the root, and fetching `/b` fails. -/
def threePages : URL → List String × Option String :=
  fun u =>
    if u.Path = "/" then (["/a", ":", "/b"], none)
    else if u.Path = "/a" then (["/b", "http://a.com"], none)
    else ([], some "timeout")

/-- The root node `http://a.com/` of the sample runs. -/
def rootA : URLNode := NewURLNode { Scheme := "http", Host := "a.com", Path := "/" } 0

/-- The node `http://a.com/a` at depth 1. -/
def nodeA : URLNode := NewURLNode { Scheme := "http", Host := "a.com", Path := "/a" } 1

/-- The node `http://a.com/b` at depth 1. -/
def nodeB : URLNode := NewURLNode { Scheme := "http", Host := "a.com", Path := "/b" } 1

/-! ## Lemmas on `path.Clean` and `path.Join` -/

/-- `path.Clean` never returns the empty string. -/
theorem Clean_ne_nil (path : List Char) : Clean path ≠ [] := by
  unfold Clean
  split
  · simp
  · simp only []
    generalize (if (decide (path.head? = some '/')) = true
      then cleanLoop (decide (path.head? = some '/')) path.length path.tail ['/'] 1
      else cleanLoop (decide (path.head? = some '/')) path.length path [] 0) = out
    split
    · simp
    · rename_i h
      intro h2
      apply h
      simpa using h2

/-- `path.Join` of two elements, the second not empty, is not empty. -/
theorem Join_pair_ne_nil (a b : List Char) (hb : b ≠ []) : Join [a, b] ≠ [] := by
  unfold Join
  have : ([a, b].map List.length).sum ≠ 0 := by
    have := List.length_pos.mpr hb
    simp only [List.map_cons, List.map_nil, List.sum_cons, List.sum_nil]
    omega
  simp only [this, if_false]
  exact Clean_ne_nil _

/-- A string other than `""` has a first byte. -/
theorem String_data_ne_nil {s : String} (h : s ≠ "") : s.data ≠ [] := by
  intro h2
  apply h
  cases s
  simp_all

/-! ## Theorems on `parseURL` -/

/-- With a parent, `parseURL` returns a URL whenever `url.Parse` does; the result is described
field by field. -/
theorem parseURL_some_ok (parse : String → Except String URL) (p : URL) (raw : String) (v : URL)
    (h : parse raw = .ok v) :
    ∃ u, parseURL parse (some p) raw = .ok u ∧
      u.Host = (if v.Host = "" then p.Host else v.Host) ∧
      u.Scheme = (if v.Scheme = "" then p.Scheme else v.Scheme) ∧
      u.Path = (if v.Path = "" then "/"
        else if v.Path.data.head? = some '.' then String.mk (Join [p.Path.data, v.Path.data])
        else v.Path) := by
  by_cases hp : v.Path = ""
  · by_cases hh : v.Host = "" <;> by_cases hs : v.Scheme = "" <;>
      simp [parseURL, h, hp, hh, hs]
  · have hd := String_data_ne_nil hp
    obtain ⟨c, t, hct⟩ := List.exists_cons_of_ne_nil hd
    by_cases hc : c = '.' <;>
    by_cases hh : v.Host = "" <;> by_cases hs : v.Scheme = "" <;>
      simp [parseURL, h, hp, hh, hs, hct, hc]

/-- Without a parent, `parseURL` returns what `url.Parse` returns, with an empty path replaced
by `/`, unless the path begins with `.`: then it dereferences the nil parent. -/
theorem parseURL_none_ok (parse : String → Except String URL) (raw : String) (v : URL)
    (h : parse raw = .ok v) :
    parseURL parse none raw =
      (if v.Path = "" then .ok { v with Path := "/" }
       else if v.Path.data.head? = some '.' then .fault .nilDereference
       else .ok v) := by
  by_cases hp : v.Path = ""
  · simp [parseURL, h, hp]
  · have hd := String_data_ne_nil hp
    obtain ⟨c, t, hct⟩ := List.exists_cons_of_ne_nil hd
    by_cases hc : c = '.' <;> simp [parseURL, h, hp, hct, hc]

/-- A parse error of `url.Parse` is returned as it is. -/
theorem parseURL_error (parse : String → Except String URL) (p : Option URL) (raw : String)
    (e : String) (h : parse raw = .error e) : parseURL parse p raw = .error e := by
  simp [parseURL, h]

/-- C1, refuted as stated: resolving `./z` against `http://a.com/x/y` does not give
`http://a.com/x/z`; it gives `http://a.com/x/y/z`. -/
theorem parseURL_dot_slash_z_is_not_x_z :
    parseURL urlParseTable (some parentXY) "./z"
      ≠ .ok { Scheme := "http", Host := "a.com", Path := "/x/z" } ∧
    parseURL urlParseTable (some parentXY) "./z"
      = .ok { Scheme := "http", Host := "a.com", Path := "/x/y/z" } := by
  decide

/-- C1, amended: resolving the raw link `./z` (which `url.Parse` answers with the path `./z` and
nothing else) against the parent `http://a.com/x/y` returns `http://a.com/x/y/z`: the link is
joined to the whole path of the parent, whose last segment is kept. -/
theorem parseURL_dot_slash_z (parse : String → Except String URL)
    (h : parse "./z" = .ok { Path := "./z" }) :
    parseURL parse (some parentXY) "./z"
      = .ok { Scheme := "http", Host := "a.com", Path := "/x/y/z" } := by
  unfold parseURL
  rw [h]
  decide

/-- The amended C1 at the table parser, whose answer for `./z` is the path `./z`. -/
theorem parseURL_dot_slash_z_witness :
    urlParseTable "./z" = .ok { Path := "./z" } ∧
    parseURL urlParseTable (some parentXY) "./z"
      = .ok { Scheme := "http", Host := "a.com", Path := "/x/y/z" } :=
  ⟨rfl, parseURL_dot_slash_z urlParseTable rfl⟩

/-- C2, the code at the failing input: when `url.Parse` answers a raw string with a path that
begins with `.`, `parseURL` with the nil parent panics on the nil dereference `p.Path`, and so
does `Crawl` with that string as root URL, for every collaborator and every bound. -/
theorem parseURL_nil_parent_dot_panics (parse : String → Except String URL) (raw : String)
    (v : URL) (h : parse raw = .ok v) (hdot : v.Path.data.head? = some '.') :
    parseURL parse none raw = .fault .nilDereference ∧
    ∀ (W : Type) (env : Env W) (w : W) (maxDepth : Int) (fuel : Nat), env.parse = parse →
      (Crawl env w raw maxDepth fuel).outcome = .panicked .nilDereference := by
  have hp : v.Path ≠ "" := by
    intro h0
    rw [h0] at hdot
    simp at hdot
  have key : parseURL parse none raw = .fault .nilDereference := by
    rw [parseURL_none_ok parse raw v h]
    simp [hp, hdot]
  refine ⟨key, ?_⟩
  intro W env w maxDepth fuel he
  subst he
  simp [Crawl, key]

/-- The failing input of C2: the root URL `./z`. -/
theorem parseURL_nil_parent_dot_panics_witness :
    parseURL urlParseTable none "./z" = .fault .nilDereference ∧
    ∀ (W : Type) (env : Env W) (w : W) (maxDepth : Int) (fuel : Nat), env.parse = urlParseTable →
      (Crawl env w "./z" maxDepth fuel).outcome = .panicked .nilDereference :=
  parseURL_nil_parent_dot_panics urlParseTable "./z" { Path := "./z" } rfl (by decide)

/-- C7: for every non-nil parent and every raw link that parses, `parseURL` returns a URL whose
host is the raw link's own host when it is non-empty and the parent's host otherwise, and whose
scheme is the raw link's own scheme when it is non-empty and the parent's scheme otherwise; for
the parent `http://a.com/x/y` and the raw link `/z` the result is `http://a.com/z`. -/
theorem parseURL_inherits_host_and_scheme :
    (∀ (parse : String → Except String URL) (p : URL) (raw : String) (v : URL),
      parse raw = .ok v →
      ∃ u, parseURL parse (some p) raw = .ok u ∧
        u.Host = (if v.Host ≠ "" then v.Host else p.Host) ∧
        u.Scheme = (if v.Scheme ≠ "" then v.Scheme else p.Scheme)) ∧
    (∀ (parse : String → Except String URL), parse "/z" = .ok { Path := "/z" } →
      parseURL parse (some parentXY) "/z"
        = .ok { Scheme := "http", Host := "a.com", Path := "/z" }) := by
  constructor
  · intro parse p raw v h
    obtain ⟨u, hu, hh, hs, _⟩ := parseURL_some_ok parse p raw v h
    refine ⟨u, hu, ?_, ?_⟩
    · rw [hh]; by_cases h0 : v.Host = "" <;> simp [h0]
    · rw [hs]; by_cases h0 : v.Scheme = "" <;> simp [h0]
  · intro parse h
    unfold parseURL
    rw [h]
    decide

/-- C7 at the parent `http://a.com/x/y` with the raw links `z` and `/z`. -/
theorem parseURL_inherits_host_and_scheme_witness :
    (∃ u, parseURL urlParseTable (some parentXY) "z" = .ok u ∧
        u.Host = "a.com" ∧ u.Scheme = "http") ∧
    parseURL urlParseTable (some parentXY) "/z"
        = .ok { Scheme := "http", Host := "a.com", Path := "/z" } :=
  ⟨parseURL_inherits_host_and_scheme.1 urlParseTable parentXY "z" { Path := "z" } rfl,
   parseURL_inherits_host_and_scheme.2 urlParseTable rfl⟩

/-- C8: for every raw link that parses with a non-empty scheme, a non-empty host and a
non-empty path that does not begin with `.`, `parseURL` returns exactly the parsed raw URL, for
every parent, nil or not; for the raw link `http://b.com/z` the result is `http://b.com/z`. -/
theorem parseURL_absolute_unchanged :
    (∀ (parse : String → Except String URL) (p : Option URL) (raw : String) (v : URL),
      parse raw = .ok v → v.Scheme ≠ "" → v.Host ≠ "" → v.Path ≠ "" →
      v.Path.data.head? ≠ some '.' →
      parseURL parse p raw = .ok v) ∧
    (∀ (parse : String → Except String URL) (p : Option URL),
      parse "http://b.com/z" = .ok { Scheme := "http", Host := "b.com", Path := "/z" } →
      parseURL parse p "http://b.com/z"
        = .ok { Scheme := "http", Host := "b.com", Path := "/z" }) := by
  have gen : ∀ (parse : String → Except String URL) (p : Option URL) (raw : String) (v : URL),
      parse raw = .ok v → v.Scheme ≠ "" → v.Host ≠ "" → v.Path ≠ "" →
      v.Path.data.head? ≠ some '.' →
      parseURL parse p raw = .ok v := by
    intro parse p raw v h hs hh hp hd
    cases p with
    | none =>
      rw [parseURL_none_ok parse raw v h]
      simp [hp, hd]
    | some q =>
      obtain ⟨c, t, hct⟩ := List.exists_cons_of_ne_nil (String_data_ne_nil hp)
      have hc : c ≠ '.' := by
        intro hc
        apply hd
        simp [hct, hc]
      simp [parseURL, h, hp, hh, hs, hct, hc]
  refine ⟨gen, ?_⟩
  intro parse p h
  exact gen parse p _ _ h (by decide) (by decide) (by decide) (by decide)

/-- C8 at the raw link `http://b.com/z`, with the parent `http://a.com/x/y` and with none. -/
theorem parseURL_absolute_unchanged_witness :
    parseURL urlParseTable (some parentXY) "http://b.com/z"
        = .ok { Scheme := "http", Host := "b.com", Path := "/z" } ∧
    parseURL urlParseTable none "http://b.com/z"
        = .ok { Scheme := "http", Host := "b.com", Path := "/z" } :=
  ⟨parseURL_absolute_unchanged.1 urlParseTable (some parentXY) "http://b.com/z" _ rfl
      (by decide) (by decide) (by decide) (by decide),
   parseURL_absolute_unchanged.2 urlParseTable none rfl⟩

/-- C10: `parseURL` never returns a URL with an empty path. A raw link that parses with an empty
path is returned with the path `/`, for every parent; with a parent every raw link that parses
is returned with a non-empty path; whatever `parseURL` returns has a non-empty path; and the
first-byte test `u.Path[0]` is never out of range. -/
theorem parseURL_path_nonempty :
    (∀ (parse : String → Except String URL) (p : Option URL) (raw : String) (v : URL),
      parse raw = .ok v → v.Path = "" →
      ∃ u, parseURL parse p raw = .ok u ∧ u.Path = "/") ∧
    (∀ (parse : String → Except String URL) (p : URL) (raw : String) (v : URL),
      parse raw = .ok v →
      ∃ u, parseURL parse (some p) raw = .ok u ∧ u.Path ≠ "") ∧
    (∀ (parse : String → Except String URL) (p : Option URL) (raw : String) (u : URL),
      parseURL parse p raw = .ok u → u.Path ≠ "") ∧
    (∀ (parse : String → Except String URL) (p : Option URL) (raw : String),
      parseURL parse p raw ≠ .fault .indexOutOfRange) := by
  have some_ne : ∀ (parse : String → Except String URL) (p : URL) (raw : String) (v : URL),
      parse raw = .ok v → ∃ u, parseURL parse (some p) raw = .ok u ∧ u.Path ≠ "" := by
    intro parse p raw v h
    obtain ⟨u, hu, _, _, hpath⟩ := parseURL_some_ok parse p raw v h
    refine ⟨u, hu, ?_⟩
    rw [hpath]
    by_cases hp : v.Path = ""
    · simp [hp]
    · by_cases hd : v.Path.data.head? = some '.'
      · simp only [hp, hd, if_true, if_false]
        intro h0
        have := congrArg String.data h0
        exact Join_pair_ne_nil p.Path.data v.Path.data (String_data_ne_nil hp) this
      · simp [hp, hd]
  refine ⟨?_, some_ne, ?_, ?_⟩
  · intro parse p raw v h hp
    cases p with
    | none =>
      rw [parseURL_none_ok parse raw v h]
      simp [hp]
    | some q =>
      obtain ⟨u, hu, _, _, hpath⟩ := parseURL_some_ok parse q raw v h
      exact ⟨u, hu, by simpa [hp] using hpath⟩
  · intro parse p raw u hu
    cases h : parse raw with
    | error e =>
      rw [parseURL_error parse p raw e h] at hu
      cases hu
    | ok v =>
      cases p with
      | none =>
        rw [parseURL_none_ok parse raw v h] at hu
        by_cases hp : v.Path = ""
        · simp only [hp, if_true, Res.ok.injEq] at hu
          rw [← hu]
          show "/" ≠ ""
          decide
        · by_cases hd : v.Path.data.head? = some '.'
          · simp [hp, hd] at hu
          · simp only [hp, hd, if_false, Res.ok.injEq] at hu
            rw [← hu]
            exact hp
      | some q =>
        obtain ⟨u2, hu2, hne⟩ := some_ne parse q raw v h
        rw [hu2] at hu
        cases hu
        exact hne
  · intro parse p raw hf
    cases h : parse raw with
    | error e =>
      rw [parseURL_error parse p raw e h] at hf
      cases hf
    | ok v =>
      cases p with
      | none =>
        rw [parseURL_none_ok parse raw v h] at hf
        by_cases hp : v.Path = ""
        · simp [hp] at hf
        · by_cases hd : v.Path.data.head? = some '.' <;> simp [hp, hd] at hf
      | some q =>
        obtain ⟨u2, hu2, _⟩ := some_ne parse q raw v h
        rw [hu2] at hf
        cases hf

/-- C10 at the root URL `http://a.com`, whose parsed path is empty, and at the link `./z`. -/
theorem parseURL_path_nonempty_witness :
    (∃ u, parseURL urlParseTable none "http://a.com" = .ok u ∧ u.Path = "/") ∧
    (∃ u, parseURL urlParseTable (some parentXY) "./z" = .ok u ∧ u.Path ≠ "") :=
  ⟨parseURL_path_nonempty.1 urlParseTable none "http://a.com"
      { Scheme := "http", Host := "a.com" } rfl rfl,
   parseURL_path_nonempty.2.1 urlParseTable parentXY "./z" { Path := "./z" } rfl⟩

/-! ## `path.Clean` on a rooted path -/

/-- A path has at least one segment. -/
theorem splitSlash_ne_nil (l : List Char) : splitSlash l ≠ [] := by
  cases l with
  | nil => simp [splitSlash]
  | cons c t =>
    unfold splitSlash
    split
    · simp
    · split <;> simp

/-- A path without `/` is its own single segment. -/
theorem splitSlash_no_slash (s : List Char) (h : '/' ∉ s) : splitSlash s = [s] := by
  induction s with
  | nil => rfl
  | cons c t ih =>
    have hc : c ≠ '/' := fun e => h (by simp [e])
    have ht : '/' ∉ t := fun e => h (by simp [e])
    simp [splitSlash, hc, ih ht]

/-- The segments of `a/b` are those of `a` followed by those of `b`. -/
theorem splitSlash_append_slash (a b : List Char) :
    splitSlash (a ++ '/' :: b) = splitSlash a ++ splitSlash b := by
  induction a with
  | nil => simp [splitSlash]
  | cons c t ih =>
    by_cases hc : c = '/'
    · simp [splitSlash, hc, ih]
    · cases h : splitSlash t with
      | nil => exact absurd h (splitSlash_ne_nil t)
      | cons s ss =>
        have e1 : splitSlash (c :: (t ++ '/' :: b)) = (c :: s) :: (ss ++ splitSlash b) := by
          rw [splitSlash, if_neg hc, ih, h]
          rfl
        have e2 : splitSlash (c :: t) = (c :: s) :: ss := by
          rw [splitSlash, if_neg hc, h]
        rw [List.cons_append, e1, e2]
        rfl

/-- Backtracking over a segment stops after the `/` in front of it, or at the leading `/`. -/
theorem backtrackFrom_segment (r X : List Char) (hr : '/' ∉ r) :
    ∀ c : Char, c ≠ '/' →
      backtrackFrom 1 c (r ++ '/' :: X) = if X = [] then ['/'] else X := by
  induction r with
  | nil =>
    intro c hc
    cases X with
    | nil => simp [backtrackFrom]
    | cons d X' => simp [backtrackFrom, hc]
  | cons d r ih =>
    intro c hc
    have hd : d ≠ '/' := fun e => hr (by simp [e])
    have hr2 : '/' ∉ r := fun e => hr (by simp [e])
    have hlen : (d :: (r ++ '/' :: X)).length > 1 := by simp
    rw [List.cons_append, backtrackFrom, if_pos ⟨hlen, hc⟩]
    exact ih hr2 d hd

/-- Only the empty stack of segments has an empty buffer. -/
theorem flatSegs_eq_nil (st : List (List Char)) : flatSegs st = [] ↔ st = [] := by
  cases st with
  | nil => simp [flatSegs]
  | cons s st => simp [flatSegs]

/-- A `..` element pops the last segment of a rooted buffer. -/
theorem backtrack_rootedBuf (s : List Char) (st : List (List Char)) (hs : CopiedSegment s) :
    backtrack 1 (rootedBuf (s :: st)) = rootedBuf st := by
  have hne : s.reverse ≠ [] := by simpa using hs.1.1
  obtain ⟨c, r, hcr⟩ := List.exists_cons_of_ne_nil hne
  have hmem : ∀ x ∈ c :: r, x ≠ '/' := by
    intro x hx e
    rw [← hcr] at hx
    exact hs.2 (by simpa [e] using hx)
  have hc : c ≠ '/' := hmem c (by simp)
  have hr : '/' ∉ r := fun e => hmem '/' (by simp [e]) rfl
  simp only [rootedBuf, flatSegs, hcr, List.cons_append, backtrack, reduceCtorEq, if_false]
  rw [backtrackFrom_segment r (flatSegs st) hr c hc]
  simp only [flatSegs_eq_nil]

/-- The rooted buffer has length 1 exactly when it is `/`. -/
theorem rootedBuf_length_eq_one (st : List (List Char)) (h : ∀ s ∈ st, CopiedSegment s) :
    (rootedBuf st).length = 1 ↔ st = [] := by
  cases st with
  | nil => simp [rootedBuf]
  | cons s st =>
    have hs := (h s (by simp)).1.1
    have : 0 < s.length := List.length_pos.mpr hs
    simp [rootedBuf, flatSegs]
    omega

/-- An element is empty only at the end of the path or in front of a `/`. -/
theorem takeWhile_not_slash_eq_nil (t : List Char) (h : t.takeWhile (· ≠ '/') = []) :
    t = [] ∨ t.head? = some '/' := by
  cases t with
  | nil => simp
  | cons d t =>
    by_cases hd : d = '/'
    · simp [hd]
    · simp [List.takeWhile, hd] at h

/-- The element copied by the default case of the loop is a copied segment. -/
theorem copied_element (c : Char) (t : List Char) (h1 : c ≠ '/')
    (h2 : ¬ (c = '.' ∧ (t = [] ∨ t.head? = some '/')))
    (h3 : ¬ (c = '.' ∧ t.head? = some '.' ∧ (t.tail = [] ∨ t.tail.head? = some '/'))) :
    CopiedSegment ((c :: t).takeWhile (· ≠ '/')) := by
  have e : (c :: t).takeWhile (· ≠ '/') = c :: t.takeWhile (· ≠ '/') := by
    simp [List.takeWhile, h1]
  rw [e]
  refine ⟨⟨by simp, ?_, ?_⟩, ?_⟩
  · intro h
    simp only [List.cons.injEq] at h
    exact h2 ⟨h.1, takeWhile_not_slash_eq_nil t h.2⟩
  · intro h
    simp only [List.cons.injEq] at h
    obtain ⟨hc, ht⟩ := h
    cases t with
    | nil => simp at ht
    | cons d t =>
      by_cases hd : d = '/'
      · simp [List.takeWhile, hd] at ht
      · have e2 : (d :: t).takeWhile (· ≠ '/') = d :: t.takeWhile (· ≠ '/') := by
          simp [List.takeWhile, hd]
        rw [e2] at ht
        simp only [List.cons.injEq] at ht
        exact h3 ⟨hc, by simp [ht.1], by simpa using takeWhile_not_slash_eq_nil t ht.2⟩
  · intro h
    rcases List.mem_cons.mp h with h | h
    · exact h1 h.symm
    · have := List.mem_takeWhile_imp h
      simp at this

/-- The loop of a rooted `path.Clean` keeps the buffer of the form `/s1/.../sn` with copied
segments `si`, whatever the iteration bound. -/
theorem cleanLoop_rooted (fuel : Nat) :
    ∀ (rest : List Char) (st : List (List Char)), (∀ s ∈ st, CopiedSegment s) →
      ∃ st2, (∀ s ∈ st2, CopiedSegment s) ∧
        cleanLoop true fuel rest (rootedBuf st) 1 = rootedBuf st2 := by
  induction fuel with
  | zero =>
    intro rest st h
    exact ⟨st, h, by simp [cleanLoop]⟩
  | succ fuel ih =>
    intro rest st h
    cases rest with
    | nil => exact ⟨st, h, by simp [cleanLoop]⟩
    | cons c t =>
      rw [cleanLoop]
      by_cases h1 : c = '/'
      · rw [if_pos h1]
        exact ih t st h
      · rw [if_neg h1]
        by_cases h2 : c = '.' ∧ (t = [] ∨ t.head? = some '/')
        · rw [if_pos h2]
          exact ih t st h
        · rw [if_neg h2]
          by_cases h3 : c = '.' ∧ t.head? = some '.' ∧ (t.tail = [] ∨ t.tail.head? = some '/')
          · rw [if_pos h3]
            cases st with
            | nil =>
              have : ¬ (rootedBuf ([] : List (List Char))).length > 1 := by simp [rootedBuf]
              rw [if_neg this]
              simp only [Bool.true_eq_false, if_false]
              exact ih t.tail [] h
            | cons s st =>
              have hlen : (rootedBuf (s :: st)).length > 1 := by
                have h0 := rootedBuf_length_eq_one (s :: st) h
                have : (rootedBuf (s :: st)).length ≠ 0 := by simp [rootedBuf, flatSegs]
                have : (rootedBuf (s :: st)).length ≠ 1 := fun e => by simpa using h0.mp e
                omega
              rw [if_pos hlen, backtrack_rootedBuf s st (h s (by simp))]
              exact ih t.tail st (fun x hx => h x (by simp [hx]))
          · rw [if_neg h3]
            have hel := copied_element c t h1 h2 h3
            have hbuf : ((c :: t).takeWhile (· ≠ '/')).reverse ++
                (if (true = true ∧ (rootedBuf st).length ≠ 1) ∨
                    (true = false ∧ (rootedBuf st).length ≠ 0)
                  then '/' :: rootedBuf st else rootedBuf st)
                = rootedBuf ((c :: t).takeWhile (· ≠ '/') :: st) := by
              cases st with
              | nil => simp [rootedBuf, flatSegs]
              | cons s st =>
                have h0 := rootedBuf_length_eq_one (s :: st) h
                have hne : (rootedBuf (s :: st)).length ≠ 1 := fun e => by simpa using h0.mp e
                simp [hne]
                simp [rootedBuf, flatSegs]
            obtain ⟨st2, hst2, heq⟩ := ih ((c :: t).dropWhile (· ≠ '/'))
              ((c :: t).takeWhile (· ≠ '/') :: st) (by
                intro x hx
                rcases List.mem_cons.mp hx with hx | hx
                · rw [hx]; exact hel
                · exact h x hx)
            rw [← hbuf] at heq
            exact ⟨st2, hst2, heq⟩

/-- The path `/s1/.../sn` read first byte first. -/
theorem rootedBuf_reverse_clean (st : List (List Char)) (h : ∀ s ∈ st, CopiedSegment s) :
    CleanAbsPath (rootedBuf st).reverse := by
  cases st with
  | nil => simp [rootedBuf, CleanAbsPath]
  | cons s st =>
    -- the reversed buffer is `/` followed by the segments joined with `/`
    have key : ∀ (st : List (List Char)) (s : List Char), (∀ x ∈ s :: st, CopiedSegment x) →
        ∃ body, (flatSegs (s :: st)).reverse = '/' :: body ∧
          splitSlash body = (s :: st).reverse ∧ body.getLast? ≠ some '/' ∧ body ≠ [] := by
      intro st
      induction st with
      | nil =>
        intro s hs
        have h1 := hs s (by simp)
        refine ⟨s, by simp [flatSegs], by simpa using splitSlash_no_slash s h1.2, ?_, h1.1.1⟩
        intro e
        exact h1.2 (List.mem_of_getLast?_eq_some e)
      | cons s2 st ih =>
        intro s hs
        have h1 := hs s (by simp)
        obtain ⟨body, hb, hsplit, _, _⟩ := ih s2 (fun x hx => hs x (by simp [hx]))
        refine ⟨body ++ '/' :: s, ?_, ?_, ?_, by simp⟩
        · rw [flatSegs, List.reverse_append, List.reverse_cons, hb]
          simp
        · rw [splitSlash_append_slash, hsplit, splitSlash_no_slash s h1.2]
          simp
        · intro e
          have hmem := List.mem_of_getLast?_eq_some e
          have hlast : (body ++ '/' :: s).getLast? = s.getLast? := by
            cases hs2 : s with
            | nil => exact absurd hs2 h1.1.1
            | cons a l =>
              rw [List.getLast?_append]
              have hl : (a :: l).getLast? = some ((a :: l).getLast (by simp)) :=
                List.getLast?_eq_getLast _ _
              rw [List.getLast?_cons_cons, hl]
              rfl
          rw [hlast] at e
          exact h1.2 (List.mem_of_getLast?_eq_some e)
    obtain ⟨body, hb, hsplit, hlast, hne⟩ := key st s h
    have hrb : rootedBuf (s :: st) = flatSegs (s :: st) := by simp [rootedBuf]
    rw [hrb, hb]
    refine ⟨by simp, Or.inr ⟨?_, ?_⟩⟩
    · intro x hx
      simp only [List.tail_cons] at hx
      rw [hsplit] at hx
      exact (h x (List.mem_reverse.mp hx)).1
    · obtain ⟨a, l, hal⟩ := List.exists_cons_of_ne_nil hne
      rw [hal, List.getLast?_cons_cons, ← hal]
      exact hlast

/-- The iteration bound of `Clean` is enough: the loop of `path.Clean` ends within as many
iterations as the path has bytes left, and a larger bound gives the same buffer. -/
theorem cleanLoop_fuel_enough (rooted : Bool) (n : Nat) :
    ∀ (fuel : Nat) (rest out : List Char) (dotdot : Nat), rest.length ≤ n → n ≤ fuel →
      cleanLoop rooted fuel rest out dotdot = cleanLoop rooted n rest out dotdot := by
  induction n with
  | zero =>
    intro fuel rest out dotdot hr _
    have : rest = [] := List.length_eq_zero.mp (Nat.le_zero.mp hr)
    subst this
    cases fuel <;> simp [cleanLoop]
  | succ n ih =>
    intro fuel rest out dotdot hr hf
    obtain ⟨f, rfl⟩ : ∃ f, fuel = f + 1 := ⟨fuel - 1, by omega⟩
    have hf2 : n ≤ f := by omega
    cases rest with
    | nil => simp [cleanLoop]
    | cons c t =>
      have ht : t.length ≤ n := by simpa using hr
      have htt : t.tail.length ≤ n := by
        rw [List.length_tail]
        omega
      rw [cleanLoop, cleanLoop]
      by_cases h1 : c = '/'
      · rw [if_pos h1, if_pos h1]
        exact ih f t out dotdot ht hf2
      · rw [if_neg h1, if_neg h1]
        by_cases h2 : c = '.' ∧ (t = [] ∨ t.head? = some '/')
        · rw [if_pos h2, if_pos h2]
          exact ih f t out dotdot ht hf2
        · rw [if_neg h2, if_neg h2]
          by_cases h3 : c = '.' ∧ t.head? = some '.' ∧ (t.tail = [] ∨ t.tail.head? = some '/')
          · rw [if_pos h3, if_pos h3]
            by_cases h4 : out.length > dotdot
            · rw [if_pos h4, if_pos h4]
              exact ih f _ _ _ htt hf2
            · rw [if_neg h4, if_neg h4]
              by_cases h5 : rooted = false
              · rw [if_pos h5, if_pos h5]
                exact ih f _ _ _ htt hf2
              · rw [if_neg h5, if_neg h5]
                exact ih f _ _ _ htt hf2
          · rw [if_neg h3, if_neg h3]
            have hd : ((c :: t).dropWhile (· ≠ '/')).length ≤ n := by
              have e : (c :: t).dropWhile (· ≠ '/') = t.dropWhile (· ≠ '/') := by
                simp [List.dropWhile, h1]
              rw [e]
              have h6 := (List.dropWhile_sublist (fun x : Char => decide (x ≠ '/')) (l := t)).length_le
              omega
            exact ih f _ _ _ hd hf2

/-- `path.Clean` of a path that begins with `/` is a cleaned absolute path. -/
theorem Clean_rooted (t : List Char) : CleanAbsPath (Clean ('/' :: t)) := by
  obtain ⟨st, hst, heq⟩ := cleanLoop_rooted ('/' :: t).length t [] (by simp)
  have hb : rootedBuf ([] : List (List Char)) = ['/'] := by simp [rootedBuf]
  rw [hb] at heq
  have hlen : (rootedBuf st).length ≠ 0 := by
    cases st with
    | nil => simp [rootedBuf]
    | cons s st => simp [rootedBuf, flatSegs]
  have : Clean ('/' :: t) = (rootedBuf st).reverse := by
    simp only [Clean, reduceCtorEq, if_false, List.head?_cons, decide_True, if_true,
      List.tail_cons]
    rw [heq, if_neg hlen]
  rw [this]
  exact rootedBuf_reverse_clean st hst

/-- `path.Join` of two non-empty elements cleans the two joined with a `/`. -/
theorem Join_pair (a b : List Char) (ha : a ≠ []) :
    Join [a, b] = Clean (a ++ '/' :: b) := by
  have hl : 0 < a.length := List.length_pos.mpr ha
  have hs : ([a, b].map List.length).sum ≠ 0 := by
    simp only [List.map_cons, List.map_nil, List.sum_cons, List.sum_nil]
    omega
  simp only [Join, hs, if_false, joinBuf]
  simp [ha, hl]

/-- C9: for every parent whose path begins with `/` and every raw link whose parsed path
begins with `.`, `parseURL` returns a URL whose path is the cleaned join of the parent's path
and the raw path, `path.Clean(parent.Path + "/" + raw.Path)`: it begins with `/`, and unless it
is `/` itself none of its segments is empty, `.` or `..` and it has no trailing slash. The raw
link `../z` against the parent `http://a.com/x/y` gives the path `/x/z`. -/
theorem parseURL_relative_path_cleaned :
    (∀ (parse : String → Except String URL) (p : URL) (raw : String) (v : URL),
      parse raw = .ok v → p.Path.data.head? = some '/' → v.Path.data.head? = some '.' →
      ∃ u, parseURL parse (some p) raw = .ok u ∧
        u.Path.data = Clean (p.Path.data ++ '/' :: v.Path.data) ∧
        CleanAbsPath u.Path.data) ∧
    (∀ (parse : String → Except String URL), parse "../z" = .ok { Path := "../z" } →
      parseURL parse (some parentXY) "../z"
        = .ok { Scheme := "http", Host := "a.com", Path := "/x/z" }) := by
  constructor
  · intro parse p raw v h hp hv
    obtain ⟨u, hu, _, _, hpath⟩ := parseURL_some_ok parse p raw v h
    have hv0 : v.Path ≠ "" := by
      intro h0
      rw [h0] at hv
      simp at hv
    have hp0 : p.Path.data ≠ [] := by
      intro h0
      rw [h0] at hp
      simp at hp
    simp only [hv0, hv, if_true, if_false] at hpath
    have hdata : u.Path.data = Clean (p.Path.data ++ '/' :: v.Path.data) := by
      rw [hpath, Join_pair _ _ hp0]
    refine ⟨u, hu, hdata, ?_⟩
    rw [hdata]
    obtain ⟨c, t, hct⟩ := List.exists_cons_of_ne_nil hp0
    have hc : c = '/' := by simpa [hct] using hp
    rw [hct, hc, List.cons_append]
    exact Clean_rooted _
  · intro parse h
    unfold parseURL
    rw [h]
    decide

/-- C9 at the parent `http://a.com/x/y` with the raw links `./z` and `../z`. -/
theorem parseURL_relative_path_cleaned_witness :
    (∃ u, parseURL urlParseTable (some parentXY) "./z" = .ok u ∧
        u.Path.data = Clean (parentXY.Path.data ++ '/' :: "./z".data) ∧
        CleanAbsPath u.Path.data) ∧
    parseURL urlParseTable (some parentXY) "../z"
        = .ok { Scheme := "http", Host := "a.com", Path := "/x/z" } :=
  ⟨parseURL_relative_path_cleaned.1 urlParseTable parentXY "./z" { Path := "./z" } rfl
      (by decide) (by decide),
   parseURL_relative_path_cleaned.2 urlParseTable rfl⟩

/-! ## The loop over the links of a page -/

/-- With a parent, `parseURL` does not panic. -/
theorem parseURL_some_no_fault (parse : String → Except String URL) (p : URL) (raw : String)
    (f : Fault) : parseURL parse (some p) raw ≠ .fault f := by
  intro hf
  cases h : parse raw with
  | error e =>
    rw [parseURL_error parse (some p) raw e h] at hf
    cases hf
  | ok v =>
    obtain ⟨u, hu, _⟩ := parseURL_some_ok parse p raw v h
    rw [hu] at hf
    cases hf

/-- What the loop over the links of a page does to the loop state: it appends nodes of depth
`parent depth + 1` to the queue, leaves the counter alone, appends link events to the trace, and
does not panic. -/
theorem rangeResult_spec {W : Type} (env : Env W) (parent : URLNode) (result : List String) :
    ∀ st : LoopState W, ∃ (children : List URLNode) (evs : List Event),
      (rangeResult env parent result st).1.queue = st.queue ++ children ∧
      (rangeResult env parent result st).1.counter = st.counter ∧
      (rangeResult env parent result st).1.trace = st.trace ++ evs ∧
      (rangeResult env parent result st).2 = none ∧
      (∀ c ∈ children, c.GetDepth = parent.GetDepth + 1) ∧
      (∀ e ∈ evs, e.isLinkEvent = true) := by
  induction result with
  | nil =>
    intro st
    exact ⟨[], [], by simp [rangeResult]⟩
  | cons urlString result ih =>
    intro st
    rw [rangeResult]
    cases hp : parseURL env.parse (some parent.GetURL) urlString with
    | error e =>
      simp only []
      obtain ⟨children, evs, h1, h2, h3, h4, h5, h6⟩ :=
        ih { st with trace := st.trace ++ [Event.parseFailed parent urlString] }
      refine ⟨children, Event.parseFailed parent urlString :: evs, h1, h2, ?_, h4, h5, ?_⟩
      · rw [h3]; simp
      · intro e he
        rcases List.mem_cons.mp he with he | he
        · rw [he]; rfl
        · exact h6 e he
    | fault f => exact absurd hp (parseURL_some_no_fault _ _ _ f)
    | ok u =>
      simp only []
      cases hr : (env.addChild st.world parent (NewURLNode u (parent.GetDepth + 1))).1 with
      | nil =>
        simp only []
        obtain ⟨children, evs, h1, h2, h3, h4, h5, h6⟩ :=
          ih { st with
            world := (env.addChild st.world parent (NewURLNode u (parent.GetDepth + 1))).2
            queue := st.queue ++ [NewURLNode u (parent.GetDepth + 1)]
            trace := st.trace ++ [Event.addChild parent (NewURLNode u (parent.GetDepth + 1)) .nil,
              Event.enqueue (NewURLNode u (parent.GetDepth + 1))] }
        refine ⟨NewURLNode u (parent.GetDepth + 1) :: children,
          Event.addChild parent (NewURLNode u (parent.GetDepth + 1)) .nil ::
            Event.enqueue (NewURLNode u (parent.GetDepth + 1)) :: evs, ?_, h2, ?_, h4, ?_, ?_⟩
        · rw [h1]; simp
        · rw [h3]; simp
        · intro c hc
          rcases List.mem_cons.mp hc with hc | hc
          · rw [hc]; rfl
          · exact h5 c hc
        · intro e he
          rcases List.mem_cons.mp he with he | he
          · rw [he]; rfl
          · rcases List.mem_cons.mp he with he | he
            · rw [he]; rfl
            · exact h6 e he
      | errInvalidNode =>
        simp only []
        obtain ⟨children, evs, h1, h2, h3, h4, h5, h6⟩ :=
          ih { st with
            world := (env.addChild st.world parent (NewURLNode u (parent.GetDepth + 1))).2
            trace := st.trace ++
              [Event.addChild parent (NewURLNode u (parent.GetDepth + 1)) .errInvalidNode] }
        refine ⟨children,
          Event.addChild parent (NewURLNode u (parent.GetDepth + 1)) .errInvalidNode :: evs,
          h1, h2, ?_, h4, h5, ?_⟩
        · rw [h3]; simp
        · intro e he
          rcases List.mem_cons.mp he with he | he
          · rw [he]; rfl
          · exact h6 e he
      | other =>
        simp only []
        obtain ⟨children, evs, h1, h2, h3, h4, h5, h6⟩ :=
          ih { st with
            world := (env.addChild st.world parent (NewURLNode u (parent.GetDepth + 1))).2
            trace := st.trace ++
              [Event.addChild parent (NewURLNode u (parent.GetDepth + 1)) .other] }
        refine ⟨children,
          Event.addChild parent (NewURLNode u (parent.GetDepth + 1)) .other :: evs,
          h1, h2, ?_, h4, h5, ?_⟩
        · rw [h3]; simp
        · intro e he
          rcases List.mem_cons.mp he with he | he
          · rw [he]; rfl
          · exact h6 e he

/-- The fetch depths of two traces, one after the other. -/
theorem fetchDepths_append (a b : List Event) :
    fetchDepths (a ++ b) = fetchDepths a ++ fetchDepths b := by
  simp [fetchDepths]

/-- The successful fetches of two traces, one after the other. -/
theorem okFetches_append (a b : List Event) : okFetches (a ++ b) = okFetches a + okFetches b := by
  simp [okFetches]

/-- Link events hold no fetch. -/
theorem fetchDepths_linkEvents (evs : List Event) (h : ∀ e ∈ evs, e.isLinkEvent = true) :
    fetchDepths evs = [] := by
  induction evs with
  | nil => rfl
  | cons e evs ih =>
    have he := h e (by simp)
    have := ih (fun x hx => h x (by simp [hx]))
    cases e <;> simp_all [fetchDepths, Event.isLinkEvent]

/-- Link events hold no successful fetch. -/
theorem okFetches_linkEvents (evs : List Event) (h : ∀ e ∈ evs, e.isLinkEvent = true) :
    okFetches evs = 0 := by
  induction evs with
  | nil => rfl
  | cons e evs ih =>
    have he := h e (by simp)
    have := ih (fun x hx => h x (by simp [hx]))
    cases e <;> simp_all [okFetches, Event.isLinkEvent]

/-- Link events hold no cancellation. -/
theorem cancelled_not_linkEvent (evs : List Event) (h : ∀ e ∈ evs, e.isLinkEvent = true) :
    Event.cancelled ∉ evs := by
  intro hc
  have := h _ hc
  simp [Event.isLinkEvent] at this

/-! ## The iterations of the crawl loop -/

/-- An iteration that finds the context done returns the cancellation error at once. -/
theorem crawlLoop_cancelled {W : Type} (env : Env W) (fuel : Nat) (st : LoopState W)
    (hd : env.ctxDone st.world = true) :
    crawlLoop env (fuel + 1) st =
      { outcome := .returned none (some (.aborted st.counter (env.ctxErr st.world)))
        final := { st with trace := st.trace ++ [Event.cancelled] } } := by
  rw [crawlLoop, if_pos hd]

/-- An iteration that finds the queue empty returns the site map. -/
theorem crawlLoop_drained {W : Type} (env : Env W) (fuel : Nat) (st : LoopState W)
    (hd : env.ctxDone st.world = false) (hq : st.queue = []) :
    crawlLoop env (fuel + 1) st = { outcome := .returned (some st.world) none, final := st } := by
  rw [crawlLoop]
  simp [hd, hq]

/-- An iteration that dequeues a node fetches it, runs the loop over the returned links whatever
the error of the fetch, and goes on: the loop over the links never panics. -/
theorem crawlLoop_step {W : Type} (env : Env W) (fuel : Nat) (st : LoopState W)
    (parent : URLNode) (queue : List URLNode)
    (hd : env.ctxDone st.world = false) (hq : st.queue = parent :: queue) :
    crawlLoop env (fuel + 1) st =
      crawlLoop env fuel
        (rangeResult env parent (env.fetch st.world parent.GetURL).1.1
          (afterFetch env st parent queue)).1 := by
  obtain ⟨_, _, _, _, _, h4, _, _⟩ := rangeResult_spec env parent
    (env.fetch st.world parent.GetURL).1.1 (afterFetch env st parent queue)
  rw [crawlLoop]
  simp only [hd, hq, Bool.false_eq_true, if_false]
  unfold afterFetch at h4 ⊢
  generalize rangeResult env parent _ _ = rr at h4 ⊢
  obtain ⟨st2, fo⟩ := rr
  simp only at h4
  subst h4
  rfl

/-! ## Breadth-first order -/

/-- One iteration keeps the breadth-first invariant. -/
theorem fetchOrdered_iteration {W : Type} (env : Env W) (st : LoopState W) (parent : URLNode)
    (queue : List URLNode) (result : List String)
    (hinv : FetchOrdered st) (hq : st.queue = parent :: queue) :
    FetchOrdered (rangeResult env parent result (afterFetch env st parent queue)).1 := by
  obtain ⟨children, evs, h1, _, h3, _, h5, h6⟩ :=
    rangeResult_spec env parent result (afterFetch env st parent queue)
  obtain ⟨hs, ⟨hqs, hq2⟩, hfq⟩ := hinv
  rw [hq] at hqs hq2 hfq
  have hqs2 : (parent.GetDepth :: queue.map URLNode.GetDepth).Pairwise (· ≤ ·) := by
    simpa [List.Sorted] using hqs
  obtain ⟨hhead, htail⟩ := List.pairwise_cons.mp hqs2
  -- bounds on the depths in the new queue and in the new fetch list
  have hlow : ∀ x ∈ queue ++ children, parent.GetDepth ≤ x.GetDepth := by
    intro x hx
    rcases List.mem_append.mp hx with hx | hx
    · exact hhead _ (List.mem_map_of_mem _ hx)
    · rw [h5 x hx]; omega
  have hhigh : ∀ x ∈ queue ++ children, x.GetDepth ≤ parent.GetDepth + 1 := by
    intro x hx
    rcases List.mem_append.mp hx with hx | hx
    · exact hq2 parent (by simp) x (by simp [hx])
    · rw [h5 x hx]
  have hfd : fetchDepths (rangeResult env parent result (afterFetch env st parent queue)).1.trace
      = fetchDepths st.trace ++ [parent.GetDepth] := by
    rw [h3, fetchDepths_append, fetchDepths_linkEvents evs h6]
    simp [afterFetch, fetchDepths]
  have hold : ∀ f ∈ fetchDepths st.trace, f ≤ parent.GetDepth :=
    fun f hf => hfq f hf parent (by simp)
  refine ⟨?_, ⟨?_, ?_⟩, ?_⟩
  · rw [hfd]
    apply List.pairwise_append.mpr
    refine ⟨hs, by simp, ?_⟩
    intro a ha b hb
    rw [List.mem_singleton.mp hb]
    exact hold a ha
  · rw [h1]
    show ((afterFetch env st parent queue).queue ++ children |>.map URLNode.GetDepth).Pairwise _
    simp only [afterFetch, List.map_append]
    apply List.pairwise_append.mpr
    refine ⟨htail, ?_, ?_⟩
    · apply List.pairwise_map.mpr
      apply List.pairwise_of_forall_mem_list
      intro a ha b hb
      rw [h5 a ha, h5 b hb]
    · intro a ha b hb
      obtain ⟨x, hx, rfl⟩ := List.mem_map.mp ha
      obtain ⟨y, hy, rfl⟩ := List.mem_map.mp hb
      rw [h5 y hy]
      exact hhigh x (by simp [hx])
  · rw [h1]
    intro x hx y hy
    have := hlow x hx
    have := hhigh y hy
    omega
  · rw [hfd, h1]
    intro f hf x hx
    have hx2 := hlow x hx
    rcases List.mem_append.mp hf with hf | hf
    · have := hold f hf
      omega
    · rw [List.mem_singleton.mp hf]
      exact hx2

/-- The loop keeps the breadth-first invariant, for any number of iterations. -/
theorem crawlLoop_fetchOrdered {W : Type} (env : Env W) (fuel : Nat) :
    ∀ st : LoopState W, FetchOrdered st → FetchOrdered (crawlLoop env fuel st).final := by
  induction fuel with
  | zero =>
    intro st h
    simpa [crawlLoop] using h
  | succ fuel ih =>
    intro st h
    cases hd : env.ctxDone st.world with
    | true =>
      rw [crawlLoop_cancelled env fuel st hd]
      obtain ⟨h1, h2, h3⟩ := h
      have e : fetchDepths (st.trace ++ [Event.cancelled]) = fetchDepths st.trace := by
        simp [fetchDepths]
      exact ⟨by simpa [e] using h1, h2, by simpa [e] using h3⟩
    | false =>
      cases hq : st.queue with
      | nil =>
        rw [crawlLoop_drained env fuel st hd hq]
        exact h
      | cons parent queue =>
        rw [crawlLoop_step env fuel st parent queue hd hq]
        exact ih _ (fetchOrdered_iteration env st parent queue _ h hq)

/-- C4: in every run of `Crawl`, for every fetcher, every site map and every other collaborator,
and after any number of iterations, the depths of the nodes passed to `Fetch`, taken in call
order, form a non-decreasing sequence, and the queue is sorted by depth and holds at most two
consecutive depth values. -/
theorem crawl_fetch_depths_nondecreasing {W : Type} (env : Env W) (w : W) (rootURL : String)
    (maxDepth : Int) (fuel : Nat) :
    (fetchDepths (Crawl env w rootURL maxDepth fuel).final.trace).Sorted (· ≤ ·) ∧
    QueueOrdered (Crawl env w rootURL maxDepth fuel).final.queue := by
  have key : FetchOrdered (Crawl env w rootURL maxDepth fuel).final := by
    unfold Crawl
    cases parseURL env.parse none rootURL with
    | error e => simp [FetchOrdered, fetchDepths, QueueOrdered]
    | fault f => simp [FetchOrdered, fetchDepths, QueueOrdered]
    | ok u =>
      simp only []
      have h0 : FetchOrdered ({
          world := env.newSiteMap w (NewURLNode u 0) maxDepth
          queue := [NewURLNode u 0]
          counter := 0
          trace := [Event.limiterGet (env.getHostName (NewURLNode u 0))] } : LoopState W) := by
        simp [FetchOrdered, fetchDepths, QueueOrdered]
      have h1 := crawlLoop_fetchOrdered env fuel _ h0
      unfold deferStop
      split
      · exact h1
      · obtain ⟨a, b, c⟩ := h1
        have e : ∀ (t : List Event) (h : String),
            fetchDepths (t ++ [Event.limiterStop h]) = fetchDepths t := by
          intro t h
          simp [fetchDepths]
        exact ⟨by simpa [e] using a, b, by simpa [e] using c⟩
  exact ⟨key.1, key.2.1⟩

/-! ## How a run ends -/

/-- A single fetch counts when it returned no error. -/
theorem okFetches_fetch (node : URLNode) (result : List String) (err : Option String) :
    okFetches [Event.fetch node result err] = if err = none then 1 else 0 := by
  cases err <;> simp [okFetches]

/-- The three ways the loop can stand after a number of iterations, started from a state in
which no cancellation has been observed and the counter counts the successful fetches: still
running, returned with the site map once the queue is drained, or returned with the
cancellation error right after the cancellation was observed. It never panics, and the counter
keeps counting the successful fetches. -/
theorem crawlLoop_outcome {W : Type} (env : Env W) (fuel : Nat) :
    ∀ st : LoopState W, Event.cancelled ∉ st.trace → st.counter = okFetches st.trace →
      (crawlLoop env fuel st).final.counter = okFetches (crawlLoop env fuel st).final.trace ∧
      (((crawlLoop env fuel st).outcome = .running ∧
          Event.cancelled ∉ (crawlLoop env fuel st).final.trace) ∨
       ((crawlLoop env fuel st).outcome = .returned (some (crawlLoop env fuel st).final.world) none
          ∧ Event.cancelled ∉ (crawlLoop env fuel st).final.trace
          ∧ (crawlLoop env fuel st).final.queue = []) ∨
       (∃ pre cause,
          (crawlLoop env fuel st).outcome = .returned none (some (.aborted (okFetches pre) cause))
          ∧ (crawlLoop env fuel st).final.trace = pre ++ [Event.cancelled]
          ∧ Event.cancelled ∉ pre)) := by
  induction fuel with
  | zero =>
    intro st hc hk
    exact ⟨by simpa [crawlLoop] using hk, Or.inl ⟨by simp [crawlLoop], by simpa [crawlLoop] using hc⟩⟩
  | succ fuel ih =>
    intro st hc hk
    cases hd : env.ctxDone st.world with
    | true =>
      rw [crawlLoop_cancelled env fuel st hd]
      refine ⟨?_, Or.inr (Or.inr ⟨st.trace, env.ctxErr st.world, ?_, rfl, hc⟩)⟩
      · simp only [okFetches_append]
        rw [hk]
        simp [okFetches]
      · rw [hk]
    | false =>
      cases hq : st.queue with
      | nil =>
        rw [crawlLoop_drained env fuel st hd hq]
        exact ⟨hk, Or.inr (Or.inl ⟨rfl, hc, hq⟩)⟩
      | cons parent queue =>
        rw [crawlLoop_step env fuel st parent queue hd hq]
        obtain ⟨children, evs, _, h2, h3, _, _, h6⟩ := rangeResult_spec env parent
          (env.fetch st.world parent.GetURL).1.1 (afterFetch env st parent queue)
        apply ih
        · rw [h3]
          intro hmem
          rcases List.mem_append.mp hmem with hmem | hmem
          · simp only [afterFetch, List.mem_append, List.mem_singleton, reduceCtorEq,
              or_false] at hmem
            exact hc hmem
          · exact cancelled_not_linkEvent evs h6 hmem
        · rw [h2, h3, okFetches_append, okFetches_linkEvents evs h6]
          simp only [afterFetch, okFetches_append, okFetches_fetch, hk]
          split <;> simp

/-- The runs of `Crawl`, case by case: the root fails to parse; the root parses to a path that
begins with `.` and the nil parent is dereferenced; or the loop is entered, and then the run is
still going, or has returned the site map, or has returned the cancellation error. -/
theorem Crawl_cases {W : Type} (env : Env W) (w : W) (rootURL : String) (maxDepth : Int)
    (fuel : Nat) :
    (∃ cause, env.parse rootURL = .error cause ∧
      (Crawl env w rootURL maxDepth fuel).outcome = .returned none (some (.parsing rootURL cause))
      ∧ (Crawl env w rootURL maxDepth fuel).final.trace = []) ∨
    (∃ v, env.parse rootURL = .ok v ∧ v.Path.data.head? = some '.' ∧
      (Crawl env w rootURL maxDepth fuel).outcome = .panicked .nilDereference
      ∧ (Crawl env w rootURL maxDepth fuel).final.trace = []) ∨
    (∃ v, env.parse rootURL = .ok v ∧ v.Path.data.head? ≠ some '.' ∧
      (Crawl env w rootURL maxDepth fuel).final.counter
        = okFetches (Crawl env w rootURL maxDepth fuel).final.trace ∧
      (((Crawl env w rootURL maxDepth fuel).outcome = .running ∧
          Event.cancelled ∉ (Crawl env w rootURL maxDepth fuel).final.trace) ∨
       ((Crawl env w rootURL maxDepth fuel).outcome
            = .returned (some (Crawl env w rootURL maxDepth fuel).final.world) none
          ∧ Event.cancelled ∉ (Crawl env w rootURL maxDepth fuel).final.trace
          ∧ (Crawl env w rootURL maxDepth fuel).final.queue = []) ∨
       (∃ pre hostname cause,
          (Crawl env w rootURL maxDepth fuel).outcome
            = .returned none (some (.aborted (okFetches pre) cause))
          ∧ (Crawl env w rootURL maxDepth fuel).final.trace
            = pre ++ [Event.cancelled, Event.limiterStop hostname]
          ∧ Event.cancelled ∉ pre))) := by
  cases hp : env.parse rootURL with
  | error cause =>
    refine Or.inl ⟨cause, rfl, ?_, ?_⟩ <;>
      simp [Crawl, parseURL_error env.parse none rootURL cause hp]
  | ok v =>
    have hnone := parseURL_none_ok env.parse rootURL v hp
    by_cases hdot : v.Path.data.head? = some '.'
    · have hne : v.Path ≠ "" := by
        intro h0
        rw [h0] at hdot
        simp at hdot
      simp only [hne, hdot, if_true, if_false] at hnone
      refine Or.inr (Or.inl ⟨v, rfl, hdot, ?_, ?_⟩) <;> simp [Crawl, hnone]
    · refine Or.inr (Or.inr ⟨v, rfl, hdot, ?_⟩)
      obtain ⟨u, hu⟩ : ∃ u, parseURL env.parse none rootURL = .ok u := by
        rw [hnone]
        by_cases h0 : v.Path = "" <;> simp [h0, hdot]
      have hinit := crawlLoop_outcome env fuel
        ({ world := env.newSiteMap w (NewURLNode u 0) maxDepth
           queue := [NewURLNode u 0]
           counter := 0
           trace := [Event.limiterGet (env.getHostName (NewURLNode u 0))] } : LoopState W)
        (by simp) (by simp [okFetches])
      have hC : Crawl env w rootURL maxDepth fuel =
          deferStop (env.getHostName (NewURLNode u 0)) (crawlLoop env fuel
            { world := env.newSiteMap w (NewURLNode u 0) maxDepth
              queue := [NewURLNode u 0]
              counter := 0
              trace := [Event.limiterGet (env.getHostName (NewURLNode u 0))] }) := by
        simp [Crawl, hu]
      rw [hC]
      generalize crawlLoop env fuel _ = r at hinit
      obtain ⟨hk, hcase⟩ := hinit
      have hstop : ∀ (t : List Event) (h : String),
          okFetches (t ++ [Event.limiterStop h]) = okFetches t := by
        intro t h
        simp [okFetches]
      rcases hcase with ⟨ho, hc⟩ | ⟨ho, hc, hq⟩ | ⟨pre, cause, ho, ht, hc⟩
      · have e : deferStop (env.getHostName (NewURLNode u 0)) r = r := by
          simp [deferStop, ho]
        rw [e]
        exact ⟨hk, Or.inl ⟨ho, hc⟩⟩
      · have e : deferStop (env.getHostName (NewURLNode u 0)) r = { r with final :=
            { r.final with trace :=
              r.final.trace ++ [Event.limiterStop (env.getHostName (NewURLNode u 0))] } } := by
          simp [deferStop, ho]
        rw [e]
        refine ⟨by simp [hstop, hk], Or.inr (Or.inl ⟨ho, ?_, hq⟩)⟩
        simpa using hc
      · have e : deferStop (env.getHostName (NewURLNode u 0)) r = { r with final :=
            { r.final with trace :=
              r.final.trace ++ [Event.limiterStop (env.getHostName (NewURLNode u 0))] } } := by
          simp [deferStop, ho]
        rw [e]
        refine ⟨by simp [hstop, hk], Or.inr (Or.inr
          ⟨pre, env.getHostName (NewURLNode u 0), cause, ho, ?_, hc⟩)⟩
        simp [ht]

/-- C3, the code at the failing input: the fetcher answers the root `http://a.com` with the
error `timeout` together with the link list `["/a"]`. The first iteration of `Crawl` does not
count the fetch, yet it resolves the link, calls `AddChild` with the root as parent and appends
the accepted child to the queue. -/
theorem failed_fetch_still_yields_children :
    (Crawl (simEnv failingPages none) {} "http://a.com" 1 1).final.trace =
      [Event.limiterGet "a.com",
       Event.fetch rootA ["/a"] (some "timeout"),
       Event.addChild rootA nodeA .nil,
       Event.enqueue nodeA] ∧
    (Crawl (simEnv failingPages none) {} "http://a.com" 1 1).final.queue = [nodeA] ∧
    (Crawl (simEnv failingPages none) {} "http://a.com" 1 1).final.counter = 0 := by
  decide

/-- C5: if cancellation is observed at the top of a loop iteration, whatever the queue holds
(also when it is empty), `Crawl` returns no site map and the cancellation error with the current
counter, and makes no further call; and in every run in which cancellation is observed, the
reported count is the number of `Fetch` calls made before that point that returned without
error, and the only call after that point is the deferred stop of the rate limiter. -/
theorem crawl_cancellation_reports_ok_fetches :
    (∀ (W : Type) (env : Env W) (fuel : Nat) (st : LoopState W), env.ctxDone st.world = true →
      (crawlLoop env (fuel + 1) st).outcome
        = .returned none (some (.aborted st.counter (env.ctxErr st.world))) ∧
      (crawlLoop env (fuel + 1) st).final.trace = st.trace ++ [Event.cancelled]) ∧
    (∀ (W : Type) (env : Env W) (w : W) (rootURL : String) (maxDepth : Int) (fuel : Nat),
      Event.cancelled ∈ (Crawl env w rootURL maxDepth fuel).final.trace →
      ∃ pre hostname cause,
        (Crawl env w rootURL maxDepth fuel).outcome
          = .returned none (some (.aborted (okFetches pre) cause)) ∧
        (Crawl env w rootURL maxDepth fuel).final.trace
          = pre ++ [Event.cancelled, Event.limiterStop hostname] ∧
        Event.cancelled ∉ pre) := by
  constructor
  · intro W env fuel st hd
    rw [crawlLoop_cancelled env fuel st hd]
    exact ⟨rfl, rfl⟩
  · intro W env w rootURL maxDepth fuel hc
    rcases Crawl_cases env w rootURL maxDepth fuel with
      ⟨_, _, _, ht⟩ | ⟨_, _, _, _, ht⟩ | ⟨_, _, _, _, h⟩
    · rw [ht] at hc
      cases hc
    · rw [ht] at hc
      cases hc
    · rcases h with ⟨_, hn⟩ | ⟨_, hn, _⟩ | h
      · exact absurd hc hn
      · exact absurd hc hn
      · exact h

/-- C5 on two runs: a loop entered with an empty queue and a cancelled context, and a crawl of
the three-page site cancelled after its third fetch. -/
theorem crawl_cancellation_reports_ok_fetches_witness :
    ((crawlLoop (simEnv threePages (some 0)) 1
        { world := {}, queue := [], counter := 0, trace := [] }).outcome
        = .returned none (some (.aborted 0 "context canceled")) ∧
      (crawlLoop (simEnv threePages (some 0)) 1
        { world := {}, queue := [], counter := 0, trace := [] }).final.trace
        = [] ++ [Event.cancelled]) ∧
    (∃ pre hostname cause,
        (Crawl (simEnv threePages (some 3)) {} "http://a.com" 2 10).outcome
          = .returned none (some (.aborted (okFetches pre) cause)) ∧
        (Crawl (simEnv threePages (some 3)) {} "http://a.com" 2 10).final.trace
          = pre ++ [Event.cancelled, Event.limiterStop hostname] ∧
        Event.cancelled ∉ pre) :=
  ⟨crawl_cancellation_reports_ok_fetches.1 SimWorld (simEnv threePages (some 0)) 0
      { world := {}, queue := [], counter := 0, trace := [] } rfl,
   crawl_cancellation_reports_ok_fetches.2 SimWorld (simEnv threePages (some 3)) {}
      "http://a.com" 2 10 (by decide)⟩

/-- The runs in which `Crawl` returns: it returns an error if and only if the root URL fails to
parse or cancellation is observed at the top of a loop iteration, and otherwise it returns the
site map with a nil error, whatever the fetcher, the link resolutions and the site map answered
on the way. A run can also end without returning: by the panic on a root URL whose parsed path
begins with `.`, before the loop starts. -/
theorem crawl_returns_error_iff {W : Type} (env : Env W) (w : W) (rootURL : String)
    (maxDepth : Int) (fuel : Nat) :
    ((∃ sm e, (Crawl env w rootURL maxDepth fuel).outcome = .returned sm (some e)) ↔
      ((∃ cause, env.parse rootURL = .error cause) ∨
        Event.cancelled ∈ (Crawl env w rootURL maxDepth fuel).final.trace)) ∧
    (∀ sm err, (Crawl env w rootURL maxDepth fuel).outcome = .returned sm err →
      (¬ ∃ cause, env.parse rootURL = .error cause) →
      Event.cancelled ∉ (Crawl env w rootURL maxDepth fuel).final.trace →
      err = none ∧ sm = some (Crawl env w rootURL maxDepth fuel).final.world) ∧
    (∀ sm err, (Crawl env w rootURL maxDepth fuel).outcome = .returned sm err →
      (sm = none ∧ err ≠ none) ∨ (sm ≠ none ∧ err = none)) ∧
    (∀ f, (Crawl env w rootURL maxDepth fuel).outcome = .panicked f →
      f = .nilDereference ∧ (Crawl env w rootURL maxDepth fuel).final.trace = [] ∧
      ∃ v, env.parse rootURL = .ok v ∧ v.Path.data.head? = some '.') := by
  rcases Crawl_cases env w rootURL maxDepth fuel with
    ⟨cause, hp, ho, ht⟩ | ⟨v, hp, hdot, ho, ht⟩ | ⟨v, hp, hdot, _, h⟩
  · refine ⟨⟨fun _ => Or.inl ⟨cause, hp⟩, fun _ => ⟨_, _, ho⟩⟩, ?_, ?_, ?_⟩
    · intro sm err _ hne
      exact absurd ⟨cause, hp⟩ hne
    · intro sm err h
      rw [ho] at h
      cases h
      exact Or.inl ⟨rfl, by simp⟩
    · intro f h
      rw [ho] at h
      cases h
  · refine ⟨⟨?_, ?_⟩, ?_, ?_, ?_⟩
    · rintro ⟨sm, e, h⟩
      rw [ho] at h
      cases h
    · rintro (⟨cause, hc⟩ | hc)
      · rw [hp] at hc
        cases hc
      · rw [ht] at hc
        cases hc
    · intro sm err h
      rw [ho] at h
      cases h
    · intro sm err h
      rw [ho] at h
      cases h
    · intro f h
      rw [ho] at h
      cases h
      exact ⟨rfl, ht, v, hp, hdot⟩
  · have hnoerr : ¬ ∃ cause, env.parse rootURL = .error cause := by
      rintro ⟨cause, hc⟩
      rw [hp] at hc
      cases hc
    rcases h with ⟨ho, hn⟩ | ⟨ho, hn, _⟩ | ⟨pre, hostname, cause, ho, ht, _⟩
    · refine ⟨⟨?_, ?_⟩, ?_, ?_, ?_⟩
      · rintro ⟨sm, e, h⟩
        rw [ho] at h
        cases h
      · rintro (hc | hc)
        · exact absurd hc hnoerr
        · exact absurd hc hn
      · intro sm err h
        rw [ho] at h
        cases h
      · intro sm err h
        rw [ho] at h
        cases h
      · intro f h
        rw [ho] at h
        cases h
    · refine ⟨⟨?_, ?_⟩, ?_, ?_, ?_⟩
      · rintro ⟨sm, e, h⟩
        rw [ho] at h
        cases h
      · rintro (hc | hc)
        · exact absurd hc hnoerr
        · exact absurd hc hn
      · intro sm err h _ _
        rw [ho] at h
        cases h
        exact ⟨rfl, rfl⟩
      · intro sm err h
        rw [ho] at h
        cases h
        exact Or.inr ⟨by simp, rfl⟩
      · intro f h
        rw [ho] at h
        cases h
    · refine ⟨⟨fun _ => Or.inr (by simp [ht]), fun _ => ⟨_, _, ho⟩⟩, ?_, ?_, ?_⟩
      · intro sm err _ _ hn
        exact absurd (by simp [ht]) hn
      · intro sm err h
        rw [ho] at h
        cases h
        exact Or.inl ⟨rfl, by simp⟩
      · intro f h
        rw [ho] at h
        cases h

/-- A returning run of the three-page site: one fetch and one link resolution fail on the way,
and the run returns the site map with a nil error. -/
theorem crawl_returns_error_iff_witness :
    (Crawl (simEnv threePages none) {} "http://a.com" 2 10).outcome
      = .returned (some (Crawl (simEnv threePages none) {} "http://a.com" 2 10).final.world) none ∧
    Event.fetch nodeB [] (some "timeout")
      ∈ (Crawl (simEnv threePages none) {} "http://a.com" 2 10).final.trace ∧
    Event.parseFailed rootA ":"
      ∈ (Crawl (simEnv threePages none) {} "http://a.com" 2 10).final.trace ∧
    ¬ ∃ sm e, (Crawl (simEnv threePages none) {} "http://a.com" 2 10).outcome
      = .returned sm (some e) :=
  ⟨rfl, by decide, by decide, fun h =>
    ((crawl_returns_error_iff (simEnv threePages none) {} "http://a.com" 2 10).1.mp h).elim
      (fun ⟨_, hc⟩ => by cases hc) (by decide)⟩

/-! ## Bare relative links and the root parse error -/

/-- C16: for every parent, nil or not, and every raw link whose parsed path is non-empty and
does not begin with `.`, `parseURL` returns a URL whose path is the parsed path of the raw
link, whatever the parent's path; the bare relative link `z` against the parent
`http://a.com/x/y` keeps the path `z` and is not resolved against the directory `/x/`. -/
theorem parseURL_plain_path_kept :
    (∀ (parse : String → Except String URL) (p : Option URL) (raw : String) (v : URL),
      parse raw = .ok v → v.Path ≠ "" → v.Path.data.head? ≠ some '.' →
      ∃ u, parseURL parse p raw = .ok u ∧ u.Path = v.Path) ∧
    (∀ (parse : String → Except String URL), parse "z" = .ok { Path := "z" } →
      parseURL parse (some parentXY) "z"
        = .ok { Scheme := "http", Host := "a.com", Path := "z" }) := by
  constructor
  · intro parse p raw v h hp hd
    cases p with
    | none =>
      refine ⟨v, ?_, rfl⟩
      rw [parseURL_none_ok parse raw v h]
      simp [hp, hd]
    | some q =>
      obtain ⟨u, hu, _, _, hpath⟩ := parseURL_some_ok parse q raw v h
      refine ⟨u, hu, ?_⟩
      rw [hpath]
      simp [hp, hd]
  · intro parse h
    unfold parseURL
    rw [h]
    decide

/-- C16 at the parent `http://a.com/x/y` and at the parent `http://a.com/` with the raw link
`z`: the path is `z` both times. -/
theorem parseURL_plain_path_kept_witness :
    (∃ u, parseURL urlParseTable (some rootA.GetURL) "z" = .ok u ∧ u.Path = "z") ∧
    parseURL urlParseTable (some parentXY) "z"
        = .ok { Scheme := "http", Host := "a.com", Path := "z" } :=
  ⟨parseURL_plain_path_kept.1 urlParseTable (some rootA.GetURL) "z" { Path := "z" } rfl
      (by decide) (by decide),
   parseURL_plain_path_kept.2 urlParseTable rfl⟩

/-- C15: if the root URL string fails to parse, `Crawl` returns no site map and the error
`parsing url '<rootURL>': <cause>`, and it does so before it starts: its trace is empty, so no
rate limiter is acquired and no `Fetch` call is made, whatever the iteration bound. -/
theorem crawl_root_parse_error {W : Type} (env : Env W) (w : W) (rootURL : String)
    (maxDepth : Int) (fuel : Nat) (cause : String) (h : env.parse rootURL = .error cause) :
    (Crawl env w rootURL maxDepth fuel).outcome
      = .returned none (some (.parsing rootURL cause)) ∧
    (CrawlError.parsing rootURL cause).Error = "parsing url '" ++ rootURL ++ "': " ++ cause ∧
    (Crawl env w rootURL maxDepth fuel).final.trace = [] ∧
    (∀ hostname, Event.limiterGet hostname ∉ (Crawl env w rootURL maxDepth fuel).final.trace) ∧
    fetchedNodes (Crawl env w rootURL maxDepth fuel).final.trace = [] := by
  have ht : (Crawl env w rootURL maxDepth fuel).final.trace = [] := by
    simp [Crawl, parseURL_error env.parse none rootURL cause h]
  refine ⟨?_, rfl, ht, ?_, ?_⟩
  · simp [Crawl, parseURL_error env.parse none rootURL cause h]
  · intro hostname
    rw [ht]
    simp
  · rw [ht]
    rfl

/-- C15 at the root URL `:`, which `url.Parse` answers with `missing protocol scheme`. -/
theorem crawl_root_parse_error_witness :
    (Crawl (simEnv threePages none) {} ":" 2 10).outcome
      = .returned none (some (.parsing ":" "parse \":\": missing protocol scheme")) ∧
    (CrawlError.parsing ":" "parse \":\": missing protocol scheme").Error
      = "parsing url '" ++ ":" ++ "': " ++ "parse \":\": missing protocol scheme" ∧
    (Crawl (simEnv threePages none) {} ":" 2 10).final.trace = [] ∧
    (∀ hostname,
      Event.limiterGet hostname ∉ (Crawl (simEnv threePages none) {} ":" 2 10).final.trace) ∧
    fetchedNodes (Crawl (simEnv threePages none) {} ":" 2 10).final.trace = [] :=
  crawl_root_parse_error (simEnv threePages none) {} ":" 2 10
    "parse \":\": missing protocol scheme" rfl

/-! ## The calls of a run, link by link -/

/-- The fetched nodes of two traces, one after the other. -/
theorem fetchedNodes_append (a b : List Event) :
    fetchedNodes (a ++ b) = fetchedNodes a ++ fetchedNodes b := by
  simp [fetchedNodes]

/-- The accepted candidates of two traces, one after the other. -/
theorem acceptedNodes_append (a b : List Event) :
    acceptedNodes (a ++ b) = acceptedNodes a ++ acceptedNodes b := by
  simp [acceptedNodes]

/-- The enqueued nodes of two traces, one after the other. -/
theorem enqueuedNodes_append (a b : List Event) :
    enqueuedNodes (a ++ b) = enqueuedNodes a ++ enqueuedNodes b := by
  simp [enqueuedNodes]

/-- The link outcomes of two traces, one after the other. -/
theorem linkOutcomes_append (a b : List Event) :
    linkOutcomes (a ++ b) = linkOutcomes a ++ linkOutcomes b := by
  simp [linkOutcomes]

/-- The outcomes called for by two traces, one after the other. -/
theorem expectedOutcomes_append {W : Type} (env : Env W) (a b : List Event) :
    expectedOutcomes env (a ++ b) = expectedOutcomes env a ++ expectedOutcomes env b := by
  simp [expectedOutcomes]

/-- Link events hold no fetched node. -/
theorem fetchedNodes_linkEvents (evs : List Event) (h : ∀ e ∈ evs, e.isLinkEvent = true) :
    fetchedNodes evs = [] := by
  induction evs with
  | nil => rfl
  | cons e evs ih =>
    have he := h e (by simp)
    have := ih (fun x hx => h x (by simp [hx]))
    cases e <;> simp_all [fetchedNodes, Event.isLinkEvent]

/-- Link events call for no outcome. -/
theorem expectedOutcomes_linkEvents {W : Type} (env : Env W) (evs : List Event)
    (h : ∀ e ∈ evs, e.isLinkEvent = true) : expectedOutcomes env evs = [] := by
  induction evs with
  | nil => rfl
  | cons e evs ih =>
    have he := h e (by simp)
    have := ih (fun x hx => h x (by simp [hx]))
    cases e <;> simp_all [expectedOutcomes, Event.isLinkEvent]

/-- The events of the loop over the links of a page, link by link: each link has exactly one
outcome, in the order of the list; the candidates are passed with the page's node as parent and
are one level below it; the nodes appended to the queue are the accepted candidates, each
enqueued right after its `AddChild` call. -/
theorem rangeResult_events {W : Type} (env : Env W) (parent : URLNode) (result : List String) :
    ∀ st : LoopState W, ∃ (children : List URLNode) (evs : List Event),
      (rangeResult env parent result st).1.queue = st.queue ++ children ∧
      (rangeResult env parent result st).1.trace = st.trace ++ evs ∧
      (∀ e ∈ evs, e.isLinkEvent = true) ∧
      acceptedNodes evs = children ∧
      enqueuedNodes evs = children ∧
      linkOutcomes evs = result.map (resolveLink env parent) ∧
      (∀ p c r, Event.addChild p c r ∈ evs → p = parent ∧ c.GetDepth = parent.GetDepth + 1) ∧
      (∀ s, pairedFrom none (evs ++ s) = pairedFrom none s) := by
  induction result with
  | nil =>
    intro st
    exact ⟨[], [], by simp [rangeResult], by simp [rangeResult], by simp, rfl, rfl, rfl,
      by simp, by simp⟩
  | cons urlString result ih =>
    intro st
    rw [rangeResult]
    cases hp : parseURL env.parse (some parent.GetURL) urlString with
    | error e =>
      simp only []
      obtain ⟨children, evs, h1, h2, h3, h4, h5, h6, h7, h8⟩ :=
        ih { st with trace := st.trace ++ [Event.parseFailed parent urlString] }
      refine ⟨children, Event.parseFailed parent urlString :: evs, h1, ?_, ?_, ?_, ?_, ?_, ?_, ?_⟩
      · rw [h2]; simp
      · intro e he
        rcases List.mem_cons.mp he with he | he
        · rw [he]; rfl
        · exact h3 e he
      · rw [← h4]; simp [acceptedNodes]
      · rw [← h5]; simp [enqueuedNodes]
      · have hr : resolveLink env parent urlString = .skipped parent urlString := by
          simp [resolveLink, hp]
        rw [List.map_cons, hr, ← h6]
        simp [linkOutcomes]
      · intro p c r hm
        rcases List.mem_cons.mp hm with hm | hm
        · cases hm
        · exact h7 p c r hm
      · intro s
        simpa [pairedFrom] using h8 s
    | fault f => exact absurd hp (parseURL_some_no_fault _ _ _ f)
    | ok u =>
      simp only []
      have hr : resolveLink env parent urlString
          = .attempted parent (NewURLNode u (parent.GetDepth + 1)) := by
        simp [resolveLink, hp]
      cases hadd : (env.addChild st.world parent (NewURLNode u (parent.GetDepth + 1))).1 with
      | nil =>
        simp only []
        obtain ⟨children, evs, h1, h2, h3, h4, h5, h6, h7, h8⟩ :=
          ih { st with
            world := (env.addChild st.world parent (NewURLNode u (parent.GetDepth + 1))).2
            queue := st.queue ++ [NewURLNode u (parent.GetDepth + 1)]
            trace := st.trace ++ [Event.addChild parent (NewURLNode u (parent.GetDepth + 1)) .nil,
              Event.enqueue (NewURLNode u (parent.GetDepth + 1))] }
        refine ⟨NewURLNode u (parent.GetDepth + 1) :: children,
          Event.addChild parent (NewURLNode u (parent.GetDepth + 1)) .nil ::
            Event.enqueue (NewURLNode u (parent.GetDepth + 1)) :: evs,
          ?_, ?_, ?_, ?_, ?_, ?_, ?_, ?_⟩
        · rw [h1]; simp
        · rw [h2]; simp
        · intro e he
          rcases List.mem_cons.mp he with he | he
          · rw [he]; rfl
          · rcases List.mem_cons.mp he with he | he
            · rw [he]; rfl
            · exact h3 e he
        · rw [← h4]; simp [acceptedNodes]
        · rw [← h5]; simp [enqueuedNodes]
        · rw [List.map_cons, hr, ← h6]
          simp [linkOutcomes]
        · intro p c r hm
          rcases List.mem_cons.mp hm with hm | hm
          · cases hm
            exact ⟨rfl, rfl⟩
          · rcases List.mem_cons.mp hm with hm | hm
            · cases hm
            · exact h7 p c r hm
        · intro s
          simpa [pairedFrom] using h8 s
      | errInvalidNode =>
        simp only []
        obtain ⟨children, evs, h1, h2, h3, h4, h5, h6, h7, h8⟩ :=
          ih { st with
            world := (env.addChild st.world parent (NewURLNode u (parent.GetDepth + 1))).2
            trace := st.trace ++
              [Event.addChild parent (NewURLNode u (parent.GetDepth + 1)) .errInvalidNode] }
        refine ⟨children,
          Event.addChild parent (NewURLNode u (parent.GetDepth + 1)) .errInvalidNode :: evs,
          h1, ?_, ?_, ?_, ?_, ?_, ?_, ?_⟩
        · rw [h2]; simp
        · intro e he
          rcases List.mem_cons.mp he with he | he
          · rw [he]; rfl
          · exact h3 e he
        · rw [← h4]; simp [acceptedNodes]
        · rw [← h5]; simp [enqueuedNodes]
        · rw [List.map_cons, hr, ← h6]
          simp [linkOutcomes]
        · intro p c r hm
          rcases List.mem_cons.mp hm with hm | hm
          · cases hm
            exact ⟨rfl, rfl⟩
          · exact h7 p c r hm
        · intro s
          simpa [pairedFrom] using h8 s
      | other =>
        simp only []
        obtain ⟨children, evs, h1, h2, h3, h4, h5, h6, h7, h8⟩ :=
          ih { st with
            world := (env.addChild st.world parent (NewURLNode u (parent.GetDepth + 1))).2
            trace := st.trace ++
              [Event.addChild parent (NewURLNode u (parent.GetDepth + 1)) .other] }
        refine ⟨children,
          Event.addChild parent (NewURLNode u (parent.GetDepth + 1)) .other :: evs,
          h1, ?_, ?_, ?_, ?_, ?_, ?_, ?_⟩
        · rw [h2]; simp
        · intro e he
          rcases List.mem_cons.mp he with he | he
          · rw [he]; rfl
          · exact h3 e he
        · rw [← h4]; simp [acceptedNodes]
        · rw [← h5]; simp [enqueuedNodes]
        · rw [List.map_cons, hr, ← h6]
          simp [linkOutcomes]
        · intro p c r hm
          rcases List.mem_cons.mp hm with hm | hm
          · cases hm
            exact ⟨rfl, rfl⟩
          · exact h7 p c r hm
        · intro s
          simpa [pairedFrom] using h8 s

/-- The cancellation mark and the deferred stop of the rate limiter leave the invariant of the
trace as it is. -/
theorem TraceInv_snoc {W : Type} (env : Env W) (root : URLNode) (st : LoopState W) (e : Event)
    (he : e = Event.cancelled ∨ ∃ hostname, e = Event.limiterStop hostname)
    (h : TraceInv env root st) :
    TraceInv env root { st with trace := st.trace ++ [e] } := by
  obtain ⟨h1, h2, h3, h4, h5⟩ := h
  have hf : fetchedNodes [e] = [] := by
    rcases he with rfl | ⟨_, rfl⟩ <;> rfl
  have ha : acceptedNodes [e] = [] := by
    rcases he with rfl | ⟨_, rfl⟩ <;> rfl
  have hq : enqueuedNodes [e] = [] := by
    rcases he with rfl | ⟨_, rfl⟩ <;> rfl
  have hl : linkOutcomes [e] = [] := by
    rcases he with rfl | ⟨_, rfl⟩ <;> rfl
  have hx : expectedOutcomes env [e] = [] := by
    rcases he with rfl | ⟨_, rfl⟩ <;> rfl
  refine ⟨?_, ?_, ?_, ?_, ?_⟩
  · simpa [fetchedNodes_append, acceptedNodes_append, hf, ha] using h1
  · simpa [enqueuedNodes_append, acceptedNodes_append, hq, ha] using h2
  · simpa [linkOutcomes_append, expectedOutcomes_append, hl, hx] using h3
  · intro p c r hm
    rcases List.mem_append.mp hm with hm | hm
    · exact h4 p c r hm
    · rcases he with rfl | ⟨_, rfl⟩ <;> simp at hm
  · intro s
    show pairedFrom none ((st.trace ++ [e]) ++ s) = pairedFrom none s
    rw [List.append_assoc, h5]
    rcases he with rfl | ⟨_, rfl⟩ <;> simp [pairedFrom]

/-- One iteration keeps the invariant of the trace. -/
theorem traceInv_iteration {W : Type} (env : Env W) (root : URLNode) (st : LoopState W)
    (parent : URLNode) (queue : List URLNode)
    (hinv : TraceInv env root st) (hq : st.queue = parent :: queue) :
    TraceInv env root
      (rangeResult env parent (env.fetch st.world parent.GetURL).1.1
        (afterFetch env st parent queue)).1 := by
  obtain ⟨children, evs, e1, e2, e3, e4, e5, e6, e7, e8⟩ := rangeResult_events env parent
    (env.fetch st.world parent.GetURL).1.1 (afterFetch env st parent queue)
  obtain ⟨h1, h2, h3, h4, h5⟩ := hinv
  rw [hq] at h1
  have ht : (rangeResult env parent (env.fetch st.world parent.GetURL).1.1
      (afterFetch env st parent queue)).1.trace
      = st.trace ++ (Event.fetch parent (env.fetch st.world parent.GetURL).1.1
          (env.fetch st.world parent.GetURL).1.2 :: evs) := by
    rw [e2]
    simp [afterFetch]
  have hqueue : (rangeResult env parent (env.fetch st.world parent.GetURL).1.1
      (afterFetch env st parent queue)).1.queue = queue ++ children := by
    rw [e1]
    rfl
  have hfe := fetchedNodes_linkEvents evs e3
  have hxe := expectedOutcomes_linkEvents env evs e3
  refine ⟨?_, ?_, ?_, ?_, ?_⟩
  · rw [ht, hqueue, fetchedNodes_append, acceptedNodes_append]
    have a1 : fetchedNodes (Event.fetch parent (env.fetch st.world parent.GetURL).1.1
        (env.fetch st.world parent.GetURL).1.2 :: evs) = [parent] := by
      rw [← hfe]
      simp [fetchedNodes]
    have a2 : acceptedNodes (Event.fetch parent (env.fetch st.world parent.GetURL).1.1
        (env.fetch st.world parent.GetURL).1.2 :: evs) = children := by
      rw [← e4]
      simp [acceptedNodes]
    rw [a1, a2]
    calc fetchedNodes st.trace ++ [parent] ++ (queue ++ children)
        = (fetchedNodes st.trace ++ parent :: queue) ++ children := by simp
      _ = root :: (acceptedNodes st.trace ++ children) := by rw [h1]; rfl
  · rw [ht, enqueuedNodes_append, acceptedNodes_append, h2]
    congr 1
    have a1 : enqueuedNodes (Event.fetch parent (env.fetch st.world parent.GetURL).1.1
        (env.fetch st.world parent.GetURL).1.2 :: evs) = children := by
      rw [← e5]
      simp [enqueuedNodes]
    have a2 : acceptedNodes (Event.fetch parent (env.fetch st.world parent.GetURL).1.1
        (env.fetch st.world parent.GetURL).1.2 :: evs) = children := by
      rw [← e4]
      simp [acceptedNodes]
    rw [a1, a2]
  · rw [ht, linkOutcomes_append, expectedOutcomes_append, h3]
    congr 1
    have a1 : linkOutcomes (Event.fetch parent (env.fetch st.world parent.GetURL).1.1
        (env.fetch st.world parent.GetURL).1.2 :: evs)
        = (env.fetch st.world parent.GetURL).1.1.map (resolveLink env parent) := by
      rw [← e6]
      simp [linkOutcomes]
    have a2 : expectedOutcomes env (Event.fetch parent (env.fetch st.world parent.GetURL).1.1
        (env.fetch st.world parent.GetURL).1.2 :: evs)
        = (env.fetch st.world parent.GetURL).1.1.map (resolveLink env parent) := by
      have : expectedOutcomes env (Event.fetch parent (env.fetch st.world parent.GetURL).1.1
          (env.fetch st.world parent.GetURL).1.2 :: evs)
          = (env.fetch st.world parent.GetURL).1.1.map (resolveLink env parent)
            ++ expectedOutcomes env evs := by
        simp [expectedOutcomes]
      rw [this, hxe]
      simp
    rw [a1, a2]
  · intro p c r hm
    rw [ht] at hm
    rcases List.mem_append.mp hm with hm | hm
    · exact h4 p c r hm
    · rcases List.mem_cons.mp hm with hm | hm
      · cases hm
      · obtain ⟨hp, hd⟩ := e7 p c r hm
        rw [hd, hp]
  · intro s
    rw [ht, List.append_assoc, h5, List.cons_append]
    simpa [pairedFrom] using e8 s

/-- The loop keeps the invariant of the trace, for any number of iterations. -/
theorem crawlLoop_traceInv {W : Type} (env : Env W) (root : URLNode) (fuel : Nat) :
    ∀ st : LoopState W, TraceInv env root st → TraceInv env root (crawlLoop env fuel st).final := by
  induction fuel with
  | zero =>
    intro st h
    simpa [crawlLoop] using h
  | succ fuel ih =>
    intro st h
    cases hd : env.ctxDone st.world with
    | true =>
      rw [crawlLoop_cancelled env fuel st hd]
      exact TraceInv_snoc env root st Event.cancelled (Or.inl rfl) h
    | false =>
      cases hq : st.queue with
      | nil =>
        rw [crawlLoop_drained env fuel st hd hq]
        exact h
      | cons parent queue =>
        rw [crawlLoop_step env fuel st parent queue hd hq]
        exact ih _ (traceInv_iteration env root st parent queue h hq)

/-- Once the root URL has parsed, every run of `Crawl` satisfies the invariant of the trace for
the root node of depth 0, after any number of iterations. -/
theorem Crawl_traceInv {W : Type} (env : Env W) (w : W) (rootURL : String) (maxDepth : Int)
    (fuel : Nat) (u : URL) (hu : parseURL env.parse none rootURL = .ok u) :
    TraceInv env (NewURLNode u 0) (Crawl env w rootURL maxDepth fuel).final := by
  have h0 : TraceInv env (NewURLNode u 0) ({
      world := env.newSiteMap w (NewURLNode u 0) maxDepth
      queue := [NewURLNode u 0]
      counter := 0
      trace := [Event.limiterGet (env.getHostName (NewURLNode u 0))] } : LoopState W) := by
    refine ⟨rfl, rfl, rfl, ?_, ?_⟩
    · intro p c r hm
      simp at hm
    · intro s
      simp [pairedFrom]
  have h1 := crawlLoop_traceInv env (NewURLNode u 0) fuel _ h0
  have hC : Crawl env w rootURL maxDepth fuel =
      deferStop (env.getHostName (NewURLNode u 0)) (crawlLoop env fuel
        { world := env.newSiteMap w (NewURLNode u 0) maxDepth
          queue := [NewURLNode u 0]
          counter := 0
          trace := [Event.limiterGet (env.getHostName (NewURLNode u 0))] }) := by
    simp [Crawl, hu]
  rw [hC]
  generalize crawlLoop env fuel _ = r at h1
  unfold deferStop
  split
  · exact h1
  · exact TraceInv_snoc env (NewURLNode u 0) r.final _ (Or.inr ⟨_, rfl⟩) h1

/-! ## Accepted candidates and the queue -/

/-- In a paired trace, an accepted `AddChild` call is followed at once by the enqueueing of its
candidate, and a rejected one is not followed by an enqueueing. -/
theorem pairedFrom_after_addChild (p c : URLNode) (r : AddChildErr) (post : List Event) :
    ∀ (pre : List Event) (s : Option URLNode),
      pairedFrom s (pre ++ Event.addChild p c r :: post) = true →
      (r = .nil → ∃ rest, post = Event.enqueue c :: rest) ∧
      (r ≠ .nil → ∀ c2 rest, post ≠ Event.enqueue c2 :: rest) := by
  intro pre
  induction pre with
  | nil =>
    intro s h
    cases s with
    | some c0 => simp [pairedFrom] at h
    | none =>
      cases r with
      | nil =>
        refine ⟨fun _ => ?_, fun hne => absurd rfl hne⟩
        cases post with
        | nil => simp [pairedFrom] at h
        | cons e rest =>
          cases e <;> simp [pairedFrom] at h
          exact ⟨rest, by rw [h.1]⟩
      | errInvalidNode =>
        refine ⟨fun hr => (by cases hr), fun _ c2 rest hpost => ?_⟩
        rw [hpost] at h
        simp [pairedFrom] at h
      | other =>
        refine ⟨fun hr => (by cases hr), fun _ c2 rest hpost => ?_⟩
        rw [hpost] at h
        simp [pairedFrom] at h
  | cons e pre ih =>
    intro s h
    cases s with
    | some c0 =>
      cases e <;> simp [pairedFrom] at h
      exact ih none h.2
    | none =>
      cases e with
      | addChild p1 c1 r1 =>
        cases r1 with
        | nil => exact ih (some c1) (by simpa [pairedFrom] using h)
        | errInvalidNode => exact ih none (by simpa [pairedFrom] using h)
        | other => exact ih none (by simpa [pairedFrom] using h)
      | enqueue c1 => simp [pairedFrom] at h
      | limiterGet _ => exact ih none (by simpa [pairedFrom] using h)
      | limiterStop _ => exact ih none (by simpa [pairedFrom] using h)
      | cancelled => exact ih none (by simpa [pairedFrom] using h)
      | fetch _ _ _ => exact ih none (by simpa [pairedFrom] using h)
      | parseFailed _ _ => exact ih none (by simpa [pairedFrom] using h)

/-- In a paired trace, an enqueueing comes right after the accepted `AddChild` call of the
node it enqueues. -/
theorem pairedFrom_before_enqueue (c : URLNode) (post : List Event) :
    ∀ (pre : List Event) (s : Option URLNode),
      pairedFrom s (pre ++ Event.enqueue c :: post) = true →
      (pre = [] ∧ s = some c) ∨ ∃ pre2 p, pre = pre2 ++ [Event.addChild p c .nil] := by
  intro pre
  induction pre with
  | nil =>
    intro s h
    cases s with
    | none => simp [pairedFrom] at h
    | some c0 =>
      simp [pairedFrom] at h
      exact Or.inl ⟨rfl, by rw [h.1]⟩
  | cons e pre ih =>
    intro s h
    have lift : ∀ s2, pairedFrom s2 (pre ++ Event.enqueue c :: post) = true → s2 = none →
        ∃ pre2 p, e :: pre = pre2 ++ [Event.addChild p c .nil] := by
      intro s2 h2 hs2
      rcases ih s2 h2 with ⟨_, hs⟩ | ⟨pre2, p, hpre⟩
      · rw [hs2] at hs
        cases hs
      · exact ⟨e :: pre2, p, by rw [hpre]; rfl⟩
    cases s with
    | some c0 =>
      cases e <;> simp [pairedFrom] at h
      exact Or.inr (lift none h.2 rfl)
    | none =>
      cases e with
      | addChild p1 c1 r1 =>
        cases r1 with
        | nil =>
          have h2 : pairedFrom (some c1) (pre ++ Event.enqueue c :: post) = true := by
            simpa [pairedFrom] using h
          rcases ih (some c1) h2 with ⟨hpre, hs⟩ | ⟨pre2, p, hpre⟩
          · cases hs
            exact Or.inr ⟨[], p1, by rw [hpre]; rfl⟩
          · exact Or.inr ⟨Event.addChild p1 c1 .nil :: pre2, p, by rw [hpre]; rfl⟩
        | errInvalidNode => exact Or.inr (lift none (by simpa [pairedFrom] using h) rfl)
        | other => exact Or.inr (lift none (by simpa [pairedFrom] using h) rfl)
      | enqueue c1 => simp [pairedFrom] at h
      | limiterGet _ => exact Or.inr (lift none (by simpa [pairedFrom] using h) rfl)
      | limiterStop _ => exact Or.inr (lift none (by simpa [pairedFrom] using h) rfl)
      | cancelled => exact Or.inr (lift none (by simpa [pairedFrom] using h) rfl)
      | fetch _ _ _ => exact Or.inr (lift none (by simpa [pairedFrom] using h) rfl)
      | parseFailed _ _ => exact Or.inr (lift none (by simpa [pairedFrom] using h) rfl)

/-- An accepted candidate of a trace comes from an `AddChild` call that returned no error. -/
theorem mem_acceptedNodes (trace : List Event) (n : URLNode) (h : n ∈ acceptedNodes trace) :
    ∃ p, Event.addChild p n .nil ∈ trace := by
  unfold acceptedNodes at h
  obtain ⟨e, he, hn⟩ := List.mem_filterMap.mp h
  cases e with
  | addChild p c r =>
    cases r <;> simp at hn
    subst hn
    exact ⟨p, he⟩
  | _ => simp at hn

/-- A run whose root URL does not resolve makes no call. -/
theorem Crawl_trace_nil {W : Type} (env : Env W) (w : W) (rootURL : String) (maxDepth : Int)
    (fuel : Nat) (h : ∀ u, parseURL env.parse none rootURL ≠ .ok u) :
    (Crawl env w rootURL maxDepth fuel).final.trace = [] := by
  unfold Crawl
  cases hp : parseURL env.parse none rootURL with
  | error e => rfl
  | fault f => rfl
  | ok u => exact absurd hp (h u)

/-- The trace of every run is paired, and its enqueued nodes are its accepted candidates. -/
theorem Crawl_paired {W : Type} (env : Env W) (w : W) (rootURL : String) (maxDepth : Int)
    (fuel : Nat) :
    pairedFrom none (Crawl env w rootURL maxDepth fuel).final.trace = true ∧
    enqueuedNodes (Crawl env w rootURL maxDepth fuel).final.trace
      = acceptedNodes (Crawl env w rootURL maxDepth fuel).final.trace := by
  cases hp : parseURL env.parse none rootURL with
  | ok u =>
    obtain ⟨_, h2, _, _, h5⟩ := Crawl_traceInv env w rootURL maxDepth fuel u hp
    exact ⟨by simpa [pairedFrom] using h5 [], h2⟩
  | error e =>
    have ht := Crawl_trace_nil env w rootURL maxDepth fuel (by rw [hp]; intro u hu; cases hu)
    rw [ht]
    exact ⟨rfl, rfl⟩
  | fault f =>
    have ht := Crawl_trace_nil env w rootURL maxDepth fuel (by rw [hp]; intro u hu; cases hu)
    rw [ht]
    exact ⟨rfl, rfl⟩

/-- C11: during `Crawl` a node is appended to the queue if and only if `AddChild` returned no
error for it. In the trace of every run, an `AddChild` call that returned no error is followed
at once by the enqueueing of its candidate, a call that returned `ErrInvalidNode` or any other
error is not followed by an enqueueing, and every enqueueing comes right after the accepted call
for the same node. So the nodes fetched so far followed by the queued ones are the root
followed by the accepted candidates, and every node passed to `Fetch` is the root or a node that
`AddChild` accepted. -/
theorem crawl_enqueues_exactly_accepted {W : Type} (env : Env W) (w : W) (rootURL : String)
    (maxDepth : Int) (fuel : Nat) :
    (∀ pre p c r post,
      (Crawl env w rootURL maxDepth fuel).final.trace = pre ++ Event.addChild p c r :: post →
      (r = .nil → ∃ rest, post = Event.enqueue c :: rest) ∧
      (r ≠ .nil → ∀ c2 rest, post ≠ Event.enqueue c2 :: rest)) ∧
    (∀ pre c post,
      (Crawl env w rootURL maxDepth fuel).final.trace = pre ++ Event.enqueue c :: post →
      ∃ pre2 p, pre = pre2 ++ [Event.addChild p c .nil]) ∧
    enqueuedNodes (Crawl env w rootURL maxDepth fuel).final.trace
      = acceptedNodes (Crawl env w rootURL maxDepth fuel).final.trace ∧
    (∀ u, parseURL env.parse none rootURL = .ok u →
      fetchedNodes (Crawl env w rootURL maxDepth fuel).final.trace
          ++ (Crawl env w rootURL maxDepth fuel).final.queue
        = NewURLNode u 0 :: acceptedNodes (Crawl env w rootURL maxDepth fuel).final.trace) ∧
    (∀ n ∈ fetchedNodes (Crawl env w rootURL maxDepth fuel).final.trace,
      (∃ u, parseURL env.parse none rootURL = .ok u ∧ n = NewURLNode u 0) ∨
      ∃ p, Event.addChild p n .nil ∈ (Crawl env w rootURL maxDepth fuel).final.trace) := by
  obtain ⟨hpaired, henq⟩ := Crawl_paired env w rootURL maxDepth fuel
  refine ⟨?_, ?_, henq, ?_, ?_⟩
  · intro pre p c r post ht
    rw [ht] at hpaired
    exact pairedFrom_after_addChild p c r post pre none hpaired
  · intro pre c post ht
    rw [ht] at hpaired
    rcases pairedFrom_before_enqueue c post pre none hpaired with ⟨_, hs⟩ | h
    · cases hs
    · exact h
  · intro u hu
    exact (Crawl_traceInv env w rootURL maxDepth fuel u hu).1
  · intro n hn
    cases hp : parseURL env.parse none rootURL with
    | ok u =>
      have h1 := (Crawl_traceInv env w rootURL maxDepth fuel u hp).1
      have hmem : n ∈ fetchedNodes (Crawl env w rootURL maxDepth fuel).final.trace
          ++ (Crawl env w rootURL maxDepth fuel).final.queue := List.mem_append_left _ hn
      rw [h1] at hmem
      rcases List.mem_cons.mp hmem with hroot | hacc
      · exact Or.inl ⟨u, rfl, hroot⟩
      · exact Or.inr (mem_acceptedNodes _ n hacc)
    | error e =>
      rw [Crawl_trace_nil env w rootURL maxDepth fuel (by rw [hp]; intro u hu; cases hu)] at hn
      cases hn
    | fault f =>
      rw [Crawl_trace_nil env w rootURL maxDepth fuel (by rw [hp]; intro u hu; cases hu)] at hn
      cases hn

/-- C11 on the crawl of the three-page site with depth bound 1: `/a` and `/b` are accepted and
enqueued, the links of `/a` (depth 2) are rejected and not enqueued, and the nodes fetched are
the root, `/a` and `/b`. -/
theorem crawl_enqueues_exactly_accepted_witness :
    fetchedNodes (Crawl (simEnv threePages none) {} "http://a.com" 1 10).final.trace
        ++ (Crawl (simEnv threePages none) {} "http://a.com" 1 10).final.queue
      = rootA :: acceptedNodes (Crawl (simEnv threePages none) {} "http://a.com" 1 10).final.trace ∧
    acceptedNodes (Crawl (simEnv threePages none) {} "http://a.com" 1 10).final.trace
      = [nodeA, nodeB] ∧
    Event.addChild nodeA
        (NewURLNode { Scheme := "http", Host := "a.com", Path := "/b" } 2) .errInvalidNode
      ∈ (Crawl (simEnv threePages none) {} "http://a.com" 1 10).final.trace :=
  ⟨(crawl_enqueues_exactly_accepted (simEnv threePages none) {} "http://a.com" 1 10).2.2.2.1
      rootA.GetURL rfl,
   by decide, by decide⟩

/-- C13: the root node is created with depth 0 (it is the node handed to `NewSiteMap` and the
only node of the queue when the loop is entered, and the first of the nodes fetched or queued
ever after), and every candidate that `Crawl` passes to `AddChild` has depth exactly one more
than the depth of the parent it is passed with. -/
theorem crawl_candidate_depths {W : Type} (env : Env W) (w : W) (rootURL : String)
    (maxDepth : Int) (fuel : Nat) :
    (∀ u, parseURL env.parse none rootURL = .ok u →
      (NewURLNode u 0).GetDepth = 0 ∧
      (Crawl env w rootURL maxDepth 0).final.queue = [NewURLNode u 0] ∧
      (Crawl env w rootURL maxDepth 0).final.world = env.newSiteMap w (NewURLNode u 0) maxDepth ∧
      (fetchedNodes (Crawl env w rootURL maxDepth fuel).final.trace
          ++ (Crawl env w rootURL maxDepth fuel).final.queue).head?
        = some (NewURLNode u 0)) ∧
    (∀ p c r, Event.addChild p c r ∈ (Crawl env w rootURL maxDepth fuel).final.trace →
      c.GetDepth = p.GetDepth + 1) := by
  constructor
  · intro u hu
    refine ⟨rfl, ?_, ?_, ?_⟩
    · simp [Crawl, hu, crawlLoop, deferStop]
    · simp [Crawl, hu, crawlLoop, deferStop]
    · rw [(Crawl_traceInv env w rootURL maxDepth fuel u hu).1]
      rfl
  · intro p c r hm
    cases hp : parseURL env.parse none rootURL with
    | ok u => exact (Crawl_traceInv env w rootURL maxDepth fuel u hp).2.2.2.1 p c r hm
    | error e =>
      rw [Crawl_trace_nil env w rootURL maxDepth fuel (by rw [hp]; intro u hu; cases hu)] at hm
      cases hm
    | fault f =>
      rw [Crawl_trace_nil env w rootURL maxDepth fuel (by rw [hp]; intro u hu; cases hu)] at hm
      cases hm

/-- C13 on the crawl of the three-page site: the candidate `/b` found on the page `/a` of depth
1 is passed with depth 2. -/
theorem crawl_candidate_depths_witness :
    (NewURLNode { Scheme := "http", Host := "a.com", Path := "/b" } 2).GetDepth
      = nodeA.GetDepth + 1 ∧
    (Crawl (simEnv threePages none) {} "http://a.com" 2 0).final.queue = [rootA] :=
  ⟨(crawl_candidate_depths (simEnv threePages none) {} "http://a.com" 2 10).2 nodeA
      (NewURLNode { Scheme := "http", Host := "a.com", Path := "/b" } 2) .errInvalidNode
      (by decide),
   ((crawl_candidate_depths (simEnv threePages none) {} "http://a.com" 2 10).1
      rootA.GetURL rfl).2.1⟩

/-! ## One outcome for each link -/

/-- C14: for every fetched page (a successfully fetched one in particular), the loop over the
returned links gives each link exactly one outcome, in the order of the list: `AddChild` is
attempted once, with the resolved candidate, for a link that resolves, and a link that does not
resolve is skipped alone, the later links of the list being processed all the same; the loop
does not panic. Over a whole run, the `AddChild` attempts and the skips of the trace are exactly
those called for by its `Fetch` calls, in order. -/
theorem crawl_attempts_each_resolved_link :
    (∀ (W : Type) (env : Env W) (parent : URLNode) (result : List String) (st : LoopState W),
      linkOutcomes (rangeResult env parent result st).1.trace
        = linkOutcomes st.trace ++ result.map (resolveLink env parent) ∧
      (rangeResult env parent result st).2 = none) ∧
    (∀ (W : Type) (env : Env W) (w : W) (rootURL : String) (maxDepth : Int) (fuel : Nat),
      linkOutcomes (Crawl env w rootURL maxDepth fuel).final.trace
        = expectedOutcomes env (Crawl env w rootURL maxDepth fuel).final.trace) := by
  constructor
  · intro W env parent result st
    obtain ⟨_, evs, _, e2, _, _, _, e6, _, _⟩ := rangeResult_events env parent result st
    obtain ⟨_, _, _, _, _, h4, _, _⟩ := rangeResult_spec env parent result st
    refine ⟨?_, h4⟩
    rw [e2, linkOutcomes_append, e6]
  · intro W env w rootURL maxDepth fuel
    cases hp : parseURL env.parse none rootURL with
    | ok u => exact (Crawl_traceInv env w rootURL maxDepth fuel u hp).2.2.1
    | error e =>
      rw [Crawl_trace_nil env w rootURL maxDepth fuel (by rw [hp]; intro u hu; cases hu)]
      rfl
    | fault f =>
      rw [Crawl_trace_nil env w rootURL maxDepth fuel (by rw [hp]; intro u hu; cases hu)]
      rfl

/-- C14 on the crawl of the three-page site: the root page returns `/a`, the unparsable `:` and
`/b`; `:` is skipped and `/b` is still attempted; the page `/a` returns `/b` and the root URL,
both attempted at depth 2. -/
theorem crawl_attempts_each_resolved_link_witness :
    linkOutcomes (Crawl (simEnv threePages none) {} "http://a.com" 2 10).final.trace
      = expectedOutcomes (simEnv threePages none)
          (Crawl (simEnv threePages none) {} "http://a.com" 2 10).final.trace ∧
    linkOutcomes (Crawl (simEnv threePages none) {} "http://a.com" 2 10).final.trace
      = [LinkOutcome.attempted rootA nodeA,
         LinkOutcome.skipped rootA ":",
         LinkOutcome.attempted rootA nodeB,
         LinkOutcome.attempted nodeA
           (NewURLNode { Scheme := "http", Host := "a.com", Path := "/b" } 2),
         LinkOutcome.attempted nodeA
           (NewURLNode { Scheme := "http", Host := "a.com", Path := "/" } 2)] :=
  ⟨crawl_attempts_each_resolved_link.2 SimWorld (simEnv threePages none) {} "http://a.com" 2 10,
   by decide⟩

/-! ## Fetches and accepted candidates -/

/-- C17: in every run of `Crawl` that returns a site map, the queue is empty at return, the
nodes passed to `Fetch` are, in call order, the root followed by the candidates for which
`AddChild` returned no error, each once, and so the number of `Fetch` calls is one plus the
number of `AddChild` calls that returned no error. -/
theorem crawl_fetch_count {W : Type} (env : Env W) (w : W) (rootURL : String)
    (maxDepth : Int) (fuel : Nat) (sm : W) (err : Option CrawlError)
    (h : (Crawl env w rootURL maxDepth fuel).outcome = .returned (some sm) err) :
    (Crawl env w rootURL maxDepth fuel).final.queue = [] ∧
    (∃ u, parseURL env.parse none rootURL = .ok u ∧
      fetchedNodes (Crawl env w rootURL maxDepth fuel).final.trace
        = NewURLNode u 0 :: acceptedNodes (Crawl env w rootURL maxDepth fuel).final.trace) ∧
    (fetchedNodes (Crawl env w rootURL maxDepth fuel).final.trace).length
      = 1 + (acceptedNodes (Crawl env w rootURL maxDepth fuel).final.trace).length := by
  have hq : (Crawl env w rootURL maxDepth fuel).final.queue = [] := by
    rcases Crawl_cases env w rootURL maxDepth fuel with
      ⟨_, _, ho, _⟩ | ⟨_, _, _, ho, _⟩ | ⟨_, _, _, _, hc⟩
    · rw [ho] at h
      cases h
    · rw [ho] at h
      cases h
    · rcases hc with ⟨ho, _⟩ | ⟨_, _, hq⟩ | ⟨_, _, _, ho, _⟩
      · rw [ho] at h
        cases h
      · exact hq
      · rw [ho] at h
        cases h
  have hu : ∃ u, parseURL env.parse none rootURL = .ok u := by
    cases hp : parseURL env.parse none rootURL with
    | ok u => exact ⟨u, rfl⟩
    | error e =>
      simp [Crawl, hp] at h
    | fault f =>
      simp [Crawl, hp] at h
  obtain ⟨u, hu⟩ := hu
  have h1 := (Crawl_traceInv env w rootURL maxDepth fuel u hu).1
  rw [hq, List.append_nil] at h1
  refine ⟨hq, ⟨u, hu, h1⟩, ?_⟩
  rw [h1]
  simp [Nat.add_comm]

/-- C17 on the crawl of the three-page site: three fetches (the root, `/a` and `/b`) for two
accepted candidates. -/
theorem crawl_fetch_count_witness :
    (Crawl (simEnv threePages none) {} "http://a.com" 2 10).final.queue = [] ∧
    (∃ u, parseURL (simEnv threePages none).parse none "http://a.com" = .ok u ∧
      fetchedNodes (Crawl (simEnv threePages none) {} "http://a.com" 2 10).final.trace
        = NewURLNode u 0
          :: acceptedNodes (Crawl (simEnv threePages none) {} "http://a.com" 2 10).final.trace) ∧
    (fetchedNodes (Crawl (simEnv threePages none) {} "http://a.com" 2 10).final.trace).length
      = 1 + (acceptedNodes
          (Crawl (simEnv threePages none) {} "http://a.com" 2 10).final.trace).length :=
  crawl_fetch_count (simEnv threePages none) {} "http://a.com" 2 10
    (Crawl (simEnv threePages none) {} "http://a.com" 2 10).final.world none rfl

/-! ## Termination -/

/-- Under a site map that rejects every candidate deeper than `maxDepth` (in every world that
satisfies the invariant `Inv`, which `AddChild` keeps), the loop over the links of a page keeps
the invariant and appends only nodes one level below the page and not deeper than
`maxDepth`. -/
theorem rangeResult_bounded {W : Type} (env : Env W) (maxDepth : Int) (Inv : W → Prop)
    (hadd : ∀ w p c, Inv w → Inv (env.addChild w p c).2)
    (hreject : ∀ w p c, Inv w → maxDepth < (c.GetDepth : Int) → (env.addChild w p c).1 ≠ .nil)
    (parent : URLNode) (result : List String) :
    ∀ st : LoopState W, Inv st.world →
      Inv (rangeResult env parent result st).1.world ∧
      ∃ children, (rangeResult env parent result st).1.queue = st.queue ++ children ∧
        ∀ c ∈ children, c.GetDepth = parent.GetDepth + 1 ∧ (c.GetDepth : Int) ≤ maxDepth := by
  induction result with
  | nil =>
    intro st hI
    exact ⟨by simpa [rangeResult] using hI, [], by simp [rangeResult], by simp⟩
  | cons urlString result ih =>
    intro st hI
    rw [rangeResult]
    cases hp : parseURL env.parse (some parent.GetURL) urlString with
    | error e =>
      simp only []
      exact ih { st with trace := st.trace ++ [Event.parseFailed parent urlString] } hI
    | fault f => exact absurd hp (parseURL_some_no_fault _ _ _ f)
    | ok u =>
      simp only []
      have hI2 := hadd st.world parent (NewURLNode u (parent.GetDepth + 1)) hI
      cases hr : (env.addChild st.world parent (NewURLNode u (parent.GetDepth + 1))).1 with
      | nil =>
        simp only []
        have hle : ((NewURLNode u (parent.GetDepth + 1)).GetDepth : Int) ≤ maxDepth := by
          by_contra hlt
          exact hreject st.world parent (NewURLNode u (parent.GetDepth + 1)) hI
            (not_le.mp hlt) hr
        obtain ⟨h1, children, h2, h3⟩ := ih { st with
            world := (env.addChild st.world parent (NewURLNode u (parent.GetDepth + 1))).2
            queue := st.queue ++ [NewURLNode u (parent.GetDepth + 1)]
            trace := st.trace ++ [Event.addChild parent (NewURLNode u (parent.GetDepth + 1)) .nil,
              Event.enqueue (NewURLNode u (parent.GetDepth + 1))] } hI2
        refine ⟨h1, NewURLNode u (parent.GetDepth + 1) :: children, ?_, ?_⟩
        · rw [h2]; simp
        · intro c hc
          rcases List.mem_cons.mp hc with hc | hc
          · rw [hc]
            exact ⟨rfl, hle⟩
          · exact h3 c hc
      | errInvalidNode =>
        simp only []
        exact ih { st with
            world := (env.addChild st.world parent (NewURLNode u (parent.GetDepth + 1))).2
            trace := st.trace ++
              [Event.addChild parent (NewURLNode u (parent.GetDepth + 1)) .errInvalidNode] } hI2
      | other =>
        simp only []
        exact ih { st with
            world := (env.addChild st.world parent (NewURLNode u (parent.GetDepth + 1))).2
            trace := st.trace ++
              [Event.addChild parent (NewURLNode u (parent.GetDepth + 1)) .other] } hI2

/-- An accepted child of a node of level `j + 1` has level `j`. -/
theorem levelOK_child (maxDepth : Int) (j : Nat) (parent c : URLNode)
    (hp : levelOK maxDepth.toNat (j + 1) parent) (hd : c.GetDepth = parent.GetDepth + 1)
    (hle : (c.GetDepth : Int) ≤ maxDepth) : levelOK maxDepth.toNat j c := by
  obtain ⟨_, h2⟩ := hp
  have h3 : c.GetDepth ≤ maxDepth.toNat := by omega
  unfold levelOK
  constructor <;> omega

/-- A loop that has ended ends the same way under a larger iteration bound. -/
theorem crawlLoop_fuel_stable {W : Type} (env : Env W) (k : Nat) (fuel : Nat) :
    ∀ st : LoopState W, (crawlLoop env fuel st).outcome ≠ .running →
      crawlLoop env (fuel + k) st = crawlLoop env fuel st := by
  induction fuel with
  | zero =>
    intro st h
    exact absurd (by simp [crawlLoop]) h
  | succ fuel ih =>
    intro st h
    have e : fuel + 1 + k = (fuel + k) + 1 := by omega
    rw [e]
    cases hd : env.ctxDone st.world with
    | true => rw [crawlLoop_cancelled env _ st hd, crawlLoop_cancelled env _ st hd]
    | false =>
      cases hq : st.queue with
      | nil => rw [crawlLoop_drained env _ st hd hq, crawlLoop_drained env _ st hd hq]
      | cons parent queue =>
        rw [crawlLoop_step env fuel st parent queue hd hq] at h
        rw [crawlLoop_step env _ st parent queue hd hq,
          crawlLoop_step env fuel st parent queue hd hq]
        exact ih _ h

/-- The loop ends from every state whose queued nodes all have the same level: by induction on
the level, and for one level on the nodes of that level still in front of the queue. -/
theorem crawlLoop_ends {W : Type} (env : Env W) (maxDepth : Int) (Inv : W → Prop)
    (hfetch : ∀ w u, Inv w → Inv (env.fetch w u).2)
    (hadd : ∀ w p c, Inv w → Inv (env.addChild w p c).2)
    (hreject : ∀ w p c, Inv w → maxDepth < (c.GetDepth : Int) → (env.addChild w p c).1 ≠ .nil)
    (j : Nat) :
    ∀ st : LoopState W, Inv st.world → (∀ x ∈ st.queue, levelOK maxDepth.toNat j x) →
      ∃ fuel, (crawlLoop env fuel st).outcome ≠ .running := by
  induction j with
  | zero =>
    intro st _ hq
    have hnil : st.queue = [] := by
      cases hst : st.queue with
      | nil => rfl
      | cons x q =>
        have := (hq x (by simp [hst])).1
        omega
    refine ⟨1, ?_⟩
    cases hd : env.ctxDone st.world with
    | true => rw [crawlLoop_cancelled env 0 st hd]; simp
    | false => rw [crawlLoop_drained env 0 st hd hnil]; simp
  | succ j ihj =>
    have front_back : ∀ (front back : List URLNode) (st : LoopState W),
        st.queue = front ++ back → Inv st.world →
        (∀ x ∈ front, levelOK maxDepth.toNat (j + 1) x) →
        (∀ x ∈ back, levelOK maxDepth.toNat j x) →
        ∃ fuel, (crawlLoop env fuel st).outcome ≠ .running := by
      intro front
      induction front with
      | nil =>
        intro back st hq hI _ hb
        exact ihj st hI (by rw [hq]; simpa using hb)
      | cons parent front ihf =>
        intro back st hq hI hf hb
        cases hd : env.ctxDone st.world with
        | true => exact ⟨1, by rw [crawlLoop_cancelled env 0 st hd]; simp⟩
        | false =>
          have hq2 : st.queue = parent :: (front ++ back) := by rw [hq]; rfl
          obtain ⟨hI2, children, hc1, hc2⟩ := rangeResult_bounded env maxDepth Inv hadd hreject
            parent (env.fetch st.world parent.GetURL).1.1
            (afterFetch env st parent (front ++ back)) (hfetch st.world parent.GetURL hI)
          obtain ⟨fuel, hfuel⟩ := ihf (back ++ children)
            (rangeResult env parent (env.fetch st.world parent.GetURL).1.1
              (afterFetch env st parent (front ++ back))).1
            (by rw [hc1]; simp [afterFetch]) hI2
            (fun x hx => hf x (by simp [hx]))
            (by
              intro x hx
              rcases List.mem_append.mp hx with hx | hx
              · exact hb x hx
              · exact levelOK_child maxDepth j parent x (hf parent (by simp))
                  (hc2 x hx).1 (hc2 x hx).2)
          refine ⟨fuel + 1, ?_⟩
          rw [crawlLoop_step env fuel st parent (front ++ back) hd hq2]
          exact hfuel
    intro st hI hq
    exact front_back st.queue [] st (by simp) hI hq (by simp)

/-- When the context is never cancelled, a loop that has ended has returned the site map with an
empty queue. -/
theorem crawlLoop_never_cancelled {W : Type} (env : Env W) (hnever : ∀ w, env.ctxDone w = false)
    (fuel : Nat) :
    ∀ st : LoopState W, (crawlLoop env fuel st).outcome ≠ .running →
      (crawlLoop env fuel st).final.queue = [] ∧
      (crawlLoop env fuel st).outcome
        = .returned (some (crawlLoop env fuel st).final.world) none := by
  induction fuel with
  | zero =>
    intro st h
    exact absurd (by simp [crawlLoop]) h
  | succ fuel ih =>
    intro st h
    have hd := hnever st.world
    cases hq : st.queue with
    | nil =>
      rw [crawlLoop_drained env fuel st hd hq]
      exact ⟨hq, rfl⟩
    | cons parent queue =>
      rw [crawlLoop_step env fuel st parent queue hd hq] at h ⊢
      exact ih _ h

/-- The deferred stop changes neither the outcome nor the queue of a run. -/
theorem deferStop_outcome_queue {W : Type} (hostname : String) (r : Run W) :
    (deferStop hostname r).outcome = r.outcome ∧
    (deferStop hostname r).final.queue = r.final.queue := by
  unfold deferStop
  split
  · exact ⟨rfl, rfl⟩
  · exact ⟨rfl, rfl⟩

/-- C12: assume that the site map rejects every candidate whose depth exceeds `maxDepth`, in
every world the run can reach (the worlds that satisfy an invariant `Inv` which holds of the
new site map and is kept by `Fetch` and `AddChild`); every `Fetch` call returns a finite list of
links, being a list. Then, for every root URL and every `maxDepth`, the run of `Crawl` ends
within some number of iterations, whether or not cancellation is signalled, and it ends the
same way under every larger bound, so that only the finitely many nodes of that run are ever
enqueued; when cancellation is never signalled, the queue is empty at the end. -/
theorem crawl_terminates {W : Type} (env : Env W) (w : W) (rootURL : String) (maxDepth : Int)
    (Inv : W → Prop)
    (hnew : ∀ rootNode, Inv (env.newSiteMap w rootNode maxDepth))
    (hfetch : ∀ w u, Inv w → Inv (env.fetch w u).2)
    (hadd : ∀ w p c, Inv w → Inv (env.addChild w p c).2)
    (hreject : ∀ w p c, Inv w → maxDepth < (c.GetDepth : Int) →
      (env.addChild w p c).1 ≠ .nil) :
    ∃ fuel, (Crawl env w rootURL maxDepth fuel).outcome ≠ .running ∧
      (∀ k, Crawl env w rootURL maxDepth (fuel + k) = Crawl env w rootURL maxDepth fuel) ∧
      ((∀ w, env.ctxDone w = false) →
        (Crawl env w rootURL maxDepth fuel).final.queue = []) := by
  cases hp : parseURL env.parse none rootURL with
  | error e =>
    refine ⟨0, ?_, ?_, ?_⟩
    · simp [Crawl, hp]
    · intro k
      simp [Crawl, hp]
    · intro _
      simp [Crawl, hp]
  | fault f =>
    refine ⟨0, ?_, ?_, ?_⟩
    · simp [Crawl, hp]
    · intro k
      simp [Crawl, hp]
    · intro _
      simp [Crawl, hp]
  | ok u =>
    have hC : ∀ fuel, Crawl env w rootURL maxDepth fuel =
        deferStop (env.getHostName (NewURLNode u 0)) (crawlLoop env fuel
          { world := env.newSiteMap w (NewURLNode u 0) maxDepth
            queue := [NewURLNode u 0]
            counter := 0
            trace := [Event.limiterGet (env.getHostName (NewURLNode u 0))] }) := by
      intro fuel
      simp [Crawl, hp]
    obtain ⟨fuel, hfuel⟩ := crawlLoop_ends env maxDepth Inv hfetch hadd hreject
      (maxDepth.toNat + 1)
      ({ world := env.newSiteMap w (NewURLNode u 0) maxDepth
         queue := [NewURLNode u 0]
         counter := 0
         trace := [Event.limiterGet (env.getHostName (NewURLNode u 0))] } : LoopState W)
      (hnew (NewURLNode u 0))
      (by
        intro x hx
        rw [List.mem_singleton.mp hx]
        exact ⟨Nat.succ_pos _, by simp [NewURLNode, URLNode.GetDepth]⟩)
    refine ⟨fuel, ?_, ?_, ?_⟩
    · rw [hC, (deferStop_outcome_queue _ _).1]
      exact hfuel
    · intro k
      rw [hC, hC, crawlLoop_fuel_stable env k fuel _ hfuel]
    · intro hnever
      rw [hC, (deferStop_outcome_queue _ _).2]
      exact (crawlLoop_never_cancelled env hnever fuel _ hfuel).1

/-- C12 on the crawl of the three-page site with depth bound 2 and a context that is never
cancelled; the invariant says that the site map keeps the bound it was created with. -/
theorem crawl_terminates_witness :
    ∃ fuel, (Crawl (simEnv threePages none) {} "http://a.com" 2 fuel).outcome ≠ .running ∧
      (∀ k, Crawl (simEnv threePages none) {} "http://a.com" 2 (fuel + k)
        = Crawl (simEnv threePages none) {} "http://a.com" 2 fuel) ∧
      ((∀ w, (simEnv threePages none).ctxDone w = false) →
        (Crawl (simEnv threePages none) {} "http://a.com" 2 fuel).final.queue = []) :=
  crawl_terminates (simEnv threePages none) {} "http://a.com" 2 (fun w => w.maxDepth = 2)
    (fun _ => rfl)
    (fun _ _ h => h)
    (fun w p c h => by
      show (simAddChild w p c).2.maxDepth = 2
      unfold simAddChild
      split
      · exact h
      · split
        · exact h
        · exact h)
    (fun w p c h hlt => by
      show (simAddChild w p c).1 ≠ .nil
      unfold simAddChild
      split
      · simp
      · rw [if_pos (Or.inl (by rw [h]; exact hlt))]
        simp)

/-! ## A run that ends without returning -/

/-- C6, the code at the failing input: when `url.Parse` answers the root URL with a path that
begins with `.`, the root URL does not fail to parse and no cancellation is observed, yet for
every collaborator and every iteration bound the run of `Crawl` has ended (it is not running),
it has ended by the panic on the nil parent, and it has returned neither the site map nor an
error. -/
theorem crawl_dotted_root_returns_nothing {W : Type} (env : Env W) (w : W) (rootURL : String)
    (maxDepth : Int) (fuel : Nat) (v : URL) (h : env.parse rootURL = .ok v)
    (hdot : v.Path.data.head? = some '.') :
    (¬ ∃ cause, env.parse rootURL = .error cause) ∧
    Event.cancelled ∉ (Crawl env w rootURL maxDepth fuel).final.trace ∧
    (Crawl env w rootURL maxDepth fuel).outcome = .panicked .nilDereference ∧
    (Crawl env w rootURL maxDepth fuel).outcome ≠ .running ∧
    (∀ sm err, (Crawl env w rootURL maxDepth fuel).outcome ≠ .returned sm err) := by
  have hp : v.Path ≠ "" := by
    intro h0
    rw [h0] at hdot
    simp at hdot
  have key : parseURL env.parse none rootURL = .fault .nilDereference := by
    rw [parseURL_none_ok env.parse rootURL v h]
    simp [hp, hdot]
  have ho : (Crawl env w rootURL maxDepth fuel).outcome = .panicked .nilDereference := by
    simp [Crawl, key]
  have ht : (Crawl env w rootURL maxDepth fuel).final.trace = [] := by
    simp [Crawl, key]
  refine ⟨?_, ?_, ho, ?_, ?_⟩
  · rintro ⟨cause, hc⟩
    rw [h] at hc
    cases hc
  · rw [ht]
    simp
  · rw [ho]
    simp
  · intro sm err
    rw [ho]
    simp

/-- The failing input of C6: the root URL `./z`, crawled on the three-page site with a context
that is never cancelled. -/
theorem crawl_dotted_root_returns_nothing_witness :
    (¬ ∃ cause, (simEnv threePages none).parse "./z" = .error cause) ∧
    Event.cancelled ∉ (Crawl (simEnv threePages none) {} "./z" 2 10).final.trace ∧
    (Crawl (simEnv threePages none) {} "./z" 2 10).outcome = .panicked .nilDereference ∧
    (Crawl (simEnv threePages none) {} "./z" 2 10).outcome ≠ .running ∧
    (∀ sm err, (Crawl (simEnv threePages none) {} "./z" 2 10).outcome ≠ .returned sm err) :=
  crawl_dotted_root_returns_nothing (simEnv threePages none) {} "./z" 2 10 { Path := "./z" }
    rfl (by decide)

end Crawler
